import Mathlib

/-!
# Verification of the tiny-loop agent core

A shallow embedding of the tiny-loop repository's core:

* the JSON value universe (`Json`) together with models of the JavaScript
  builtins `JSON.stringify` / `JSON.parse` that the code applies to it
  (`stringify`, `parse`), and of `String.replaceAll` (`replaceAll`,
  including ECMA-262 `GetSubstitution` expansion of `$` patterns in the
  replacement string);
* SHA-1 (`sha1hex`), modelling Node's `crypto` as used by `calculateSha1`;
* the replay cache `cachedComplete` with secret redaction
  (`hideSecrets` / `unhideSecrets`) from `src/src/cache.ts`;
* the canonical `Loop.run` turn state machine from
  `src/packages/loop/src/loop.ts` (the draft with hooks, attached
  tool results and the `toolError` field);
* the conversation summariser `summarizeConversation` and the indented
  markup renderer `jsx`;
* the Gemini schema sanitiser `stripUnsupportedSchemaFields`.

Strings are modelled as `List Char` (abbreviated `Str`) so that the
replacement lemmas can proceed by list induction.

Modelling notes for the JavaScript builtins:

* `stringify` emits the canonical compact form produced by
  `JSON.stringify`: no whitespace, object fields in insertion order, and
  the escapes `\" \\ \n \t \r`; other characters are emitted raw.
  JSON numbers are restricted to integers — no float ever reaches the
  serialised values used by the verified claims.
* `parse` inverts exactly that printer.  It accepts a superset of
  strict JSON on inputs that `stringify` never produces (raw control
  characters inside string literals, no whitespace skipping); every
  text parsed by the code under verification was first produced by
  `stringify` (possibly with textual substitutions applied), so the
  difference is unobservable in the theorems below, and the theorems
  that depend on a substituted text staying canonical state that
  assumption explicitly.
-/

/-- JavaScript strings, modelled as lists of characters. -/
abbrev Str := List Char

/- JSON values, mutually with JSON arrays and JSON objects (field lists
in insertion order, as JavaScript objects preserve it). -/
mutual
inductive Json where
  | null : Json
  | bool (b : Bool) : Json
  | num (n : Int) : Json
  | str (s : Str) : Json
  | arr (elements : JList) : Json
  | obj (fields : JFields) : Json
  deriving DecidableEq, Repr

inductive JList where
  | nil : JList
  | cons (hd : Json) (tl : JList) : JList
  deriving DecidableEq, Repr

inductive JFields where
  | nil : JFields
  | cons (key : Str) (val : Json) (tl : JFields) : JFields
  deriving DecidableEq, Repr
end

/-- Build a `JList` from a `List Json` (convenience for concrete values). -/
def jlist : List Json → JList
  | [] => .nil
  | x :: xs => .cons x (jlist xs)

/-- Build a `JFields` from an association list (convenience for concrete values). -/
def jfields : List (Str × Json) → JFields
  | [] => .nil
  | (k, v) :: xs => .cons k v (jfields xs)

/-- The escape `JSON.stringify` applies to a single character inside a
string literal. -/
def escapeChar (c : Char) : Str :=
  if c = '"' then ['\\', '"']
  else if c = '\\' then ['\\', '\\']
  else if c = '\n' then ['\\', 'n']
  else if c = '\t' then ['\\', 't']
  else if c = '\r' then ['\\', 'r']
  else [c]

/-- The body of a serialised JSON string literal. -/
def encodeStringBody : Str → Str
  | [] => []
  | c :: t => escapeChar c ++ encodeStringBody t

/-- A serialised JSON string literal, quotes included. -/
def encodeString (s : Str) : Str := '"' :: (encodeStringBody s ++ ['"'])

/-- Decimal digits of a natural number (most significant first). -/
def encodeNat (n : Nat) : Str :=
  if h : n < 10 then [Char.ofNat (48 + n)]
  else encodeNat (n / 10) ++ [Char.ofNat (48 + n % 10)]
  decreasing_by exact Nat.div_lt_self (by omega) (by omega)

/-- Decimal representation of an integer, as `JSON.stringify` prints it. -/
def encodeInt (n : Int) : Str :=
  if n < 0 then '-' :: encodeNat n.natAbs else encodeNat n.natAbs

/- `JSON.stringify(x)`: canonical compact serialisation. -/
mutual
def stringify : Json → Str
  | .null => 'n' :: 'u' :: 'l' :: 'l' :: []
  | .bool true => 't' :: 'r' :: 'u' :: 'e' :: []
  | .bool false => 'f' :: 'a' :: 'l' :: 's' :: 'e' :: []
  | .num n => encodeInt n
  | .str s => encodeString s
  | .arr .nil => '[' :: ']' :: []
  | .arr (.cons x tl) => '[' :: (stringify x ++ stringifyItems tl) ++ [']']
  | .obj .nil => '{' :: '}' :: []
  | .obj (.cons k v tl) =>
      '{' :: (encodeString k ++ ':' :: stringify v ++ stringifyMembers tl) ++ ['}']

def stringifyItems : JList → Str
  | .nil => []
  | .cons x tl => ',' :: stringify x ++ stringifyItems tl

def stringifyMembers : JFields → Str
  | .nil => []
  | .cons k v tl => ',' :: (encodeString k ++ ':' :: stringify v) ++ stringifyMembers tl
end

/-- Inverse of `escapeChar`'s second character. -/
def unescapeChar (c : Char) : Option Char :=
  if c = '"' then some '"'
  else if c = '\\' then some '\\'
  else if c = 'n' then some '\n'
  else if c = 't' then some '\t'
  else if c = 'r' then some '\r'
  else none

/-- Parse the body of a string literal up to the closing quote; returns the
decoded body and the remainder after the quote. -/
def parseBody : Str → Option (Str × Str)
  | [] => none
  | c :: t =>
    if c = '"' then some ([], t)
    else if c = '\\' then
      match t with
      | [] => none
      | e :: t2 =>
        match unescapeChar e with
        | some d => (parseBody t2).map (fun p => (d :: p.1, p.2))
        | none => none
    else (parseBody t).map (fun p => (c :: p.1, p.2))

/-- Decimal digit test. -/
def isDig (c : Char) : Bool := '0' ≤ c ∧ c ≤ '9'

/-- Numeric value of a digit string (most significant first). -/
def decodeDigits (s : Str) : Nat :=
  s.foldl (fun acc c => 10 * acc + (c.toNat - 48)) 0

/-- Parse a nonempty run of digits. -/
def parseNat (s : Str) : Option (Nat × Str) :=
  let ds := s.takeWhile isDig
  if ds = [] then none else some (decodeDigits ds, s.dropWhile isDig)

/-- Head-character test (`s[0] === d` in JavaScript terms). -/
def headIs (s : Str) (d : Char) : Bool :=
  match s with
  | [] => false
  | c :: _ => c = d

/- `JSON.parse`, specialised to the whitespace-free canonical form that
`stringify` emits (see the module header).  The fuel argument only serves
termination; `parse` supplies enough for any input. -/
mutual
def parseVal : Nat → Str → Option (Json × Str)
  | 0, _ => none
  | fuel + 1, s =>
    match s with
    | [] => none
    | c :: r =>
      if c = 'n' then
        match r with
        | 'u' :: 'l' :: 'l' :: r2 => some (.null, r2)
        | _ => none
      else if c = 't' then
        match r with
        | 'r' :: 'u' :: 'e' :: r2 => some (.bool true, r2)
        | _ => none
      else if c = 'f' then
        match r with
        | 'a' :: 'l' :: 's' :: 'e' :: r2 => some (.bool false, r2)
        | _ => none
      else if c = '"' then (parseBody r).map (fun p => (.str p.1, p.2))
      else if c = '[' then
        if headIs r ']' then some (.arr .nil, r.tail)
        else (parseItems fuel r).map (fun p => (.arr p.1, p.2))
      else if c = '{' then
        if headIs r '}' then some (.obj .nil, r.tail)
        else (parseMembers fuel r).map (fun p => (.obj p.1, p.2))
      else if c = '-' then (parseNat r).map (fun p => (.num (-(p.1 : Int)), p.2))
      else if isDig c then (parseNat (c :: r)).map (fun p => (.num (p.1 : Int), p.2))
      else none

def parseItems : Nat → Str → Option (JList × Str)
  | 0, _ => none
  | fuel + 1, s =>
    match parseVal fuel s with
    | some (v, ',' :: r) => (parseItems fuel r).map (fun p => (.cons v p.1, p.2))
    | some (v, ']' :: r) => some (.cons v .nil, r)
    | _ => none

def parseMembers : Nat → Str → Option (JFields × Str)
  | 0, _ => none
  | fuel + 1, s =>
    match s with
    | '"' :: s2 =>
      (match parseBody s2 with
       | some (k, ':' :: r) =>
         (match parseVal fuel r with
          | some (v, ',' :: r2) => (parseMembers fuel r2).map (fun p => (.cons k v p.1, p.2))
          | some (v, '}' :: r2) => some (.cons k v .nil, r2)
          | _ => none)
       | _ => none)
    | _ => none
end

/-- `JSON.parse(text)`: succeeds only if the whole input is consumed. -/
def parse (s : Str) : Option Json :=
  match parseVal (2 * s.length + 2) s with
  | some (v, []) => some v
  | _ => none

/-- The input has no leading decimal digit (used to delimit greedy number
parsing in the round-trip lemmas). -/
def headNotDig : Str → Bool
  | [] => true
  | c :: _ => !(isDig c)

theorem parseBody_encode (s rest : Str) :
    parseBody (encodeStringBody s ++ '"' :: rest) = some (s, rest) := by
  induction s with
  | nil =>
    rw [encodeStringBody, List.nil_append, parseBody.eq_def]
    simp
  | cons c t ih =>
    rw [encodeStringBody, escapeChar]
    split_ifs with h1 h2 h3 h4 h5 <;>
      · subst_vars
        simp only [List.cons_append, List.nil_append]
        rw [parseBody.eq_def]
        simp_all [unescapeChar]

theorem encodeNat_ne_nil (n : Nat) : encodeNat n ≠ [] := by
  unfold encodeNat
  split <;> simp

theorem isDig_ofNat (m : Nat) (hm : m < 10) : isDig (Char.ofNat (48 + m)) = true := by
  interval_cases m <;> decide

theorem toNat_ofNat_digit (m : Nat) (hm : m < 10) : (Char.ofNat (48 + m)).toNat = 48 + m := by
  interval_cases m <;> decide

theorem encodeNat_all_digits (n : Nat) : ∀ c ∈ encodeNat n, isDig c = true := by
  induction n using Nat.strong_induction_on with
  | _ n ih =>
    unfold encodeNat
    split
    next h =>
      intro c hc
      simp at hc
      subst hc
      exact isDig_ofNat n h
    next h =>
      intro c hc
      simp at hc
      rcases hc with hc | hc
      · exact ih (n / 10) (Nat.div_lt_self (by omega) (by omega)) c hc
      · subst hc
        exact isDig_ofNat (n % 10) (Nat.mod_lt _ (by omega))

theorem decodeDigits_append_one (a : Str) (c : Char) :
    decodeDigits (a ++ [c]) = 10 * decodeDigits a + (c.toNat - 48) := by
  simp [decodeDigits, List.foldl_append]

theorem decodeDigits_encodeNat (n : Nat) : decodeDigits (encodeNat n) = n := by
  induction n using Nat.strong_induction_on with
  | _ n ih =>
    unfold encodeNat
    split
    next h =>
      simp [decodeDigits, toNat_ofNat_digit n h]
    next h =>
      rw [decodeDigits_append_one, ih (n / 10) (Nat.div_lt_self (by omega) (by omega)),
        toNat_ofNat_digit (n % 10) (Nat.mod_lt _ (by omega))]
      omega

theorem takeWhile_all_append (P : Char → Bool) (a r : Str) (ha : ∀ c ∈ a, P c = true) :
    (a ++ r).takeWhile P = a ++ r.takeWhile P := by
  induction a with
  | nil => simp
  | cons c t ih =>
    have hc : P c = true := ha c (by simp)
    simp only [List.cons_append, List.takeWhile_cons, hc, if_true]
    rw [ih fun d hd => ha d (by simp [hd])]

theorem dropWhile_all_append (P : Char → Bool) (a r : Str) (ha : ∀ c ∈ a, P c = true) :
    (a ++ r).dropWhile P = r.dropWhile P := by
  induction a with
  | nil => simp
  | cons c t ih =>
    have hc : P c = true := ha c (by simp)
    simp only [List.cons_append, List.dropWhile_cons, hc, if_true]
    exact ih fun d hd => ha d (by simp [hd])

theorem takeWhile_isDig_headNot (r : Str) (h : headNotDig r = true) :
    r.takeWhile isDig = [] := by
  cases r with
  | nil => simp
  | cons c t =>
    simp only [headNotDig, Bool.not_eq_true'] at h
    simp [List.takeWhile_cons, h]

theorem dropWhile_isDig_headNot (r : Str) (h : headNotDig r = true) :
    r.dropWhile isDig = r := by
  cases r with
  | nil => simp
  | cons c t =>
    simp only [headNotDig, Bool.not_eq_true'] at h
    simp [List.dropWhile_cons, h]

theorem parseNat_encode (n : Nat) (rest : Str) (hrest : headNotDig rest = true) :
    parseNat (encodeNat n ++ rest) = some (n, rest) := by
  unfold parseNat
  rw [takeWhile_all_append _ _ _ (encodeNat_all_digits n),
    dropWhile_all_append _ _ _ (encodeNat_all_digits n),
    takeWhile_isDig_headNot _ hrest, dropWhile_isDig_headNot _ hrest]
  simp [encodeNat_ne_nil n, decodeDigits_encodeNat n]

theorem isDig_ne_starters (c : Char) (h : isDig c = true) :
    c ≠ 'n' ∧ c ≠ 't' ∧ c ≠ 'f' ∧ c ≠ '"' ∧ c ≠ '[' ∧ c ≠ '{' ∧ c ≠ '-' ∧
      c ≠ ']' ∧ c ≠ '}' ∧ c ≠ ',' ∧ c ≠ ':' := by
  refine ⟨?_, ?_, ?_, ?_, ?_, ?_, ?_, ?_, ?_, ?_, ?_⟩ <;>
    · intro hc
      subst hc
      exact absurd h (by decide)

theorem encodeNat_head (n : Nat) :
    ∃ c s', encodeNat n = c :: s' ∧ isDig c = true := by
  induction n using Nat.strong_induction_on with
  | _ n ih =>
    unfold encodeNat
    split
    next h => exact ⟨_, _, rfl, isDig_ofNat n h⟩
    next h =>
      obtain ⟨c, s', heq, hdig⟩ := ih (n / 10) (Nat.div_lt_self (by omega) (by omega))
      exact ⟨c, s' ++ [Char.ofNat (48 + n % 10)], by rw [heq]; rfl, hdig⟩

/-- Every serialised JSON value is nonempty and starts with a character
that is neither a closing bracket nor a separator. -/
theorem stringify_head (x : Json) :
    ∃ c s', stringify x = c :: s' ∧ c ≠ ']' ∧ c ≠ '}' := by
  cases x with
  | null => exact ⟨_, _, rfl, by decide, by decide⟩
  | bool b => cases b with
    | true => exact ⟨_, _, rfl, by decide, by decide⟩
    | false => exact ⟨_, _, rfl, by decide, by decide⟩
  | num n =>
    rw [stringify, encodeInt]
    split
    · exact ⟨_, _, rfl, by decide, by decide⟩
    · obtain ⟨c, s', heq, hdig⟩ := encodeNat_head n.natAbs
      obtain ⟨_, _, _, _, _, _, _, h8, h9, _, _⟩ := isDig_ne_starters c hdig
      exact ⟨c, s', heq, h8, h9⟩
  | str s => exact ⟨_, _, rfl, by decide, by decide⟩
  | arr xs => cases xs with
    | nil => exact ⟨_, _, rfl, by decide, by decide⟩
    | cons x tl => exact ⟨_, _, rfl, by decide, by decide⟩
  | obj fs => cases fs with
    | nil => exact ⟨_, _, rfl, by decide, by decide⟩
    | cons k v tl => exact ⟨_, _, rfl, by decide, by decide⟩

theorem stringify_ne_nil (x : Json) : stringify x ≠ [] := by
  obtain ⟨c, s', heq, -, -⟩ := stringify_head x
  simp [heq]

theorem stringify_length_pos (x : Json) : 1 ≤ (stringify x).length := by
  obtain ⟨c, s', heq, -, -⟩ := stringify_head x
  simp [heq]

theorem headNotDig_items (tl : JList) (rest : Str) :
    headNotDig (stringifyItems tl ++ ']' :: rest) = true := by
  cases tl <;> simp [stringifyItems, headNotDig, isDig]

theorem headNotDig_members (tl : JFields) (rest : Str) :
    headNotDig (stringifyMembers tl ++ '}' :: rest) = true := by
  cases tl <;> simp [stringifyMembers, headNotDig, isDig]

theorem encodeString_length (k : Str) :
    (encodeString k).length = (encodeStringBody k).length + 2 := by
  simp [encodeString]

set_option maxHeartbeats 1000000 in
mutual
theorem parseVal_stringify (x : Json) (fuel : Nat) (rest : Str)
    (hf : (stringify x).length + 1 ≤ fuel) (hrest : headNotDig rest = true) :
    parseVal fuel (stringify x ++ rest) = some (x, rest) := by
  obtain ⟨f, rfl⟩ : ∃ f, fuel = f + 1 := ⟨fuel - 1, by omega⟩
  cases x with
  | null => rw [stringify]; rw [parseVal.eq_def]; simp
  | bool b => cases b with
    | true => rw [stringify]; rw [parseVal.eq_def]; simp
    | false => rw [stringify]; rw [parseVal.eq_def]; simp
  | num n =>
    rw [stringify, encodeInt]
    split
    next hneg =>
      have hn : -|n| = n := by rw [abs_of_neg hneg]; ring
      rw [List.cons_append, parseVal.eq_def]
      simp [parseNat_encode n.natAbs rest hrest, hn]
    next hneg =>
      obtain ⟨c, s', heq, hdig⟩ := encodeNat_head n.natAbs
      obtain ⟨h1, h2, h3, h4, h5, h6, h7, -, -, -, -⟩ := isDig_ne_starters c hdig
      have hpn : parseNat (c :: (s' ++ rest)) = some (n.natAbs, rest) := by
        rw [← List.cons_append, ← heq]
        exact parseNat_encode n.natAbs rest hrest
      have hn : |n| = n := abs_of_nonneg (by omega)
      rw [heq, List.cons_append, parseVal.eq_def]
      simp [h1, h2, h3, h4, h5, h6, h7, hdig, hpn, hn]
  | str s =>
    have hb : parseBody (encodeStringBody s ++ '"' :: rest) = some (s, rest) :=
      parseBody_encode s rest
    rw [stringify, encodeString, List.cons_append, parseVal.eq_def]
    simp [hb]
  | arr xs =>
    cases xs with
    | nil => rw [stringify]; rw [parseVal.eq_def]; simp [headIs]
    | cons x tl =>
      obtain ⟨c, s', heq, hc1, -⟩ := stringify_head x
      have hit := parseItems_stringify x tl f rest (by
          have hx := stringify_length_pos x
          have hl : (stringify (Json.arr (.cons x tl))).length
              = (stringify x).length + (stringifyItems tl).length + 2 := by
            rw [stringify]; simp <;> omega
          omega) hrest
      have hassoc : (('[' :: (stringify x ++ stringifyItems tl) ++ [']']) ++ rest)
          = '[' :: (stringify x ++ (stringifyItems tl ++ ']' :: rest)) := by
        simp
      have hhead : headIs (stringify x ++ (stringifyItems tl ++ ']' :: rest)) ']' = false := by
        rw [heq]
        simp [headIs, hc1]
      rw [stringify, hassoc, parseVal.eq_def]
      simp [hhead, hit]
  | obj fs =>
    cases fs with
    | nil => rw [stringify]; rw [parseVal.eq_def]; simp [headIs]
    | cons k v tl =>
      have hm := parseMembers_stringify k v tl f rest (by
          have hl : (stringify (Json.obj (.cons k v tl))).length
              = (encodeString k).length + (stringify v).length + (stringifyMembers tl).length + 3 := by
            rw [stringify]; simp <;> omega
          omega) hrest
      have hassoc : (('{' :: (encodeString k ++ ':' :: stringify v ++ stringifyMembers tl) ++ ['}']) ++ rest)
          = '{' :: (encodeString k ++ (':' :: (stringify v ++ (stringifyMembers tl ++ '}' :: rest)))) := by
        simp
      have hhead : headIs (encodeString k ++ (':' :: (stringify v ++ (stringifyMembers tl ++ '}' :: rest)))) '}' = false := by
        rw [encodeString]
        simp [headIs]
      rw [stringify, hassoc, parseVal.eq_def]
      simp [hhead, hm]
termination_by sizeOf x

theorem parseItems_stringify (x : Json) (tl : JList) (fuel : Nat) (rest : Str)
    (hf : (stringify x).length + (stringifyItems tl).length + 2 ≤ fuel)
    (hrest : headNotDig rest = true) :
    parseItems fuel (stringify x ++ (stringifyItems tl ++ ']' :: rest))
      = some (.cons x tl, rest) := by
  obtain ⟨f, rfl⟩ : ∃ f, fuel = f + 1 := ⟨fuel - 1, by omega⟩
  have hv := parseVal_stringify x f (stringifyItems tl ++ ']' :: rest)
      (by omega) (headNotDig_items tl rest)
  cases tl with
  | nil =>
    simp only [stringifyItems, List.nil_append] at hv ⊢
    rw [parseItems.eq_def]
    simp [hv]
  | cons y tl2 =>
    have hit := parseItems_stringify y tl2 f rest (by
        have hx := stringify_length_pos x
        have hl : (stringifyItems (JList.cons y tl2)).length
            = (stringify y).length + (stringifyItems tl2).length + 1 := by
          rw [stringifyItems]; simp <;> omega
        omega) hrest
    simp only [stringifyItems, List.cons_append, List.append_assoc] at hv ⊢
    rw [parseItems.eq_def]
    simp [hv, hit]
termination_by sizeOf x + sizeOf tl + 1

theorem parseMembers_stringify (k : Str) (v : Json) (tl : JFields) (fuel : Nat) (rest : Str)
    (hf : (encodeString k).length + (stringify v).length + (stringifyMembers tl).length + 2 ≤ fuel)
    (hrest : headNotDig rest = true) :
    parseMembers fuel (encodeString k ++ (':' :: (stringify v ++ (stringifyMembers tl ++ '}' :: rest))))
      = some (.cons k v tl, rest) := by
  obtain ⟨f, rfl⟩ : ∃ f, fuel = f + 1 := ⟨fuel - 1, by omega⟩
  have hv := parseVal_stringify v f (stringifyMembers tl ++ '}' :: rest)
      (by have := encodeString_length k; omega) (headNotDig_members tl rest)
  have hb : parseBody (encodeStringBody k ++ '"' :: (':' :: (stringify v ++ (stringifyMembers tl ++ '}' :: rest))))
      = some (k, ':' :: (stringify v ++ (stringifyMembers tl ++ '}' :: rest))) :=
    parseBody_encode k _
  cases tl with
  | nil =>
    simp only [stringifyMembers, List.nil_append] at hv hb ⊢
    rw [parseMembers.eq_def, encodeString]
    simp only [List.cons_append, List.append_assoc, List.singleton_append]
    simp [hb, hv]
  | cons k2 v2 tl2 =>
    have hm := parseMembers_stringify k2 v2 tl2 f rest (by
        have hvp := stringify_length_pos v
        have he := encodeString_length k
        have hl : (stringifyMembers (JFields.cons k2 v2 tl2)).length
            = (encodeString k2).length + (stringify v2).length + (stringifyMembers tl2).length + 2 := by
          rw [stringifyMembers]; simp <;> omega
        omega) hrest
    simp only [stringifyMembers, List.cons_append, List.append_assoc] at hv hb ⊢
    rw [parseMembers.eq_def, encodeString]
    simp only [List.cons_append, List.append_assoc, List.singleton_append]
    simp [hb, hv, hm]
termination_by sizeOf v + sizeOf tl + 1
end

/-- The canonical serialisation round-trips through the parser:
`JSON.parse(JSON.stringify(x)) = x` for every JSON value. -/
theorem parse_stringify (x : Json) : parse (stringify x) = some x := by
  have h := parseVal_stringify x (2 * (stringify x).length + 2) [] (by omega) rfl
  rw [List.append_nil] at h
  rw [parse, h]

/-- One left-to-right, non-overlapping replacement pass with a literal
replacement string: the behaviour of the `String.prototype.replaceAll`
pass when the replacement template contains no `'$'` (on such templates
`getSubstitution` is the identity, see `replaceLoopJS_no_dollar`).  The
fuel argument only serves termination (each step consumes at least one
character, so an initial fuel of the input's length is always enough). -/
def replaceLoop (v0 : Char) (vt r : Str) : Nat → Str → Str
  | fuel + 1, c :: t =>
    if (v0 :: vt) <+: (c :: t) then r ++ replaceLoop v0 vt r fuel (t.drop vt.length)
    else c :: replaceLoop v0 vt r fuel t
  | _, t => t

/-- Literal empty-pattern behaviour: the replacement is inserted at every
position (`"ab".replaceAll("", "-") === "-a-b-"` style). -/
def interleave (r : Str) : Str → Str
  | [] => r
  | c :: t => r ++ c :: interleave r t

/-- ECMA-262 `GetSubstitution` for a string search pattern: the
replacement template is scanned for `'$'` patterns — `$$` yields `$`,
`$&` the matched text, a dollar followed by a backquote the part of the
subject before the match, a dollar followed by a straight quote the part
after it; any other `'$'` (including `$n`, which has no capture group to
refer to when the pattern is a string, and `$<`, which has no named
captures) stands for itself. -/
def getSubstitution (matched before after : Str) : Str → Str
  | [] => []
  | [c] => [c]
  | c :: d :: t =>
    if c = '$' then
      if d = '$' then '$' :: getSubstitution matched before after t
      else if d = '&' then matched ++ getSubstitution matched before after t
      else if d = Char.ofNat 96 then before ++ getSubstitution matched before after t
      else if d = Char.ofNat 39 then after ++ getSubstitution matched before after t
      else c :: getSubstitution matched before after (d :: t)
    else c :: getSubstitution matched before after (d :: t)

/-- One left-to-right, non-overlapping replacement pass of
`String.prototype.replaceAll` for a nonempty pattern `v0 :: vt`: at each
match the replacement template `r` is expanded with `getSubstitution`
against the match's contexts in the original subject; `before`
accumulates the part of the subject already consumed. -/
def replaceLoopJS (v0 : Char) (vt r : Str) : Nat → Str → Str → Str
  | fuel + 1, before, c :: t =>
    if (v0 :: vt) <+: (c :: t) then
      getSubstitution (v0 :: vt) before (t.drop vt.length) r
        ++ replaceLoopJS v0 vt r fuel (before ++ v0 :: vt) (t.drop vt.length)
    else c :: replaceLoopJS v0 vt r fuel (before ++ [c]) t
  | _, _, t => t

/-- Empty-pattern behaviour of `replaceAll`: the expanded template is
inserted at every position of the subject. -/
def interleaveJS (r : Str) : Str → Str → Str
  | before, [] => getSubstitution [] before [] r
  | before, c :: t =>
    getSubstitution [] before (c :: t) r ++ c :: interleaveJS r (before ++ [c]) t

/-- `text.replaceAll(v, r)`: replace every non-overlapping occurrence of
`v` in `text`, scanning left to right, substituting the template `r`
expanded per ECMA-262 `GetSubstitution`. -/
def replaceAll (t v r : Str) : Str :=
  match v with
  | [] => interleaveJS r [] t
  | v0 :: vt => replaceLoopJS v0 vt r t.length [] t

/-- The `<name>` placeholder the cache substitutes for a secret value. -/
def placeholder (k : Str) : Str := '<' :: (k ++ ['>'])

/-- A replacement template without `'$'` expands to itself. -/
theorem getSubstitution_no_dollar (matched before after : Str) :
    ∀ r : Str, '$' ∉ r → getSubstitution matched before after r = r
  | [], _ => rfl
  | [c], _ => rfl
  | c :: d :: t, h => by
    rw [getSubstitution]
    rw [if_neg (fun hc => h (by rw [← hc]; exact List.mem_cons_self c (d :: t)))]
    rw [getSubstitution_no_dollar matched before after (d :: t)
      (fun hm => h (List.mem_cons_of_mem c hm))]

/-- With a `'$'`-free replacement the faithful pass coincides with the
literal pass, whatever the consumed prefix. -/
theorem replaceLoopJS_no_dollar (v0 : Char) (vt r : Str) (h : '$' ∉ r) :
    ∀ (fuel : Nat) (before t : Str),
      replaceLoopJS v0 vt r fuel before t = replaceLoop v0 vt r fuel t := by
  intro fuel
  induction fuel with
  | zero => intro before t; cases t <;> rfl
  | succ f ih =>
    intro before t
    cases t with
    | nil => rfl
    | cons c t' =>
      by_cases hp : (v0 :: vt) <+: (c :: t')
      · rw [replaceLoopJS, replaceLoop, if_pos hp, if_pos hp,
          getSubstitution_no_dollar _ _ _ r h, ih]
      · rw [replaceLoopJS, replaceLoop, if_neg hp, if_neg hp, ih]

/-- With a `'$'`-free replacement the faithful empty-pattern insertion is
the literal one. -/
theorem interleaveJS_no_dollar (r : Str) (h : '$' ∉ r) :
    ∀ (t before : Str), interleaveJS r before t = interleave r t
  | [], before => by
    rw [interleaveJS, interleave, getSubstitution_no_dollar _ _ _ r h]
  | c :: t', before => by
    rw [interleaveJS, interleave, getSubstitution_no_dollar _ _ _ r h,
      interleaveJS_no_dollar r h t' (before ++ [c])]

/-- `replaceAll` with a `'$'`-free replacement is literal replacement. -/
theorem replaceAll_no_dollar (t v r : Str) (h : '$' ∉ r) :
    replaceAll t v r
      = match v with
        | [] => interleave r t
        | v0 :: vt => replaceLoop v0 vt r t.length t := by
  cases v with
  | nil => exact interleaveJS_no_dollar r h t []
  | cons v0 vt => exact replaceLoopJS_no_dollar v0 vt r h t.length [] t

/-- A secret name without `'$'` gives a placeholder without `'$'`. -/
theorem dollar_not_placeholder {k : Str} (hk : '$' ∉ k) : '$' ∉ placeholder k := by
  rw [placeholder]
  intro hm
  rcases List.mem_cons.mp hm with h1 | h2
  · exact absurd h1 (by decide)
  · rcases List.mem_append.mp h2 with h3 | h4
    · exact hk h3
    · exact absurd (List.mem_singleton.mp h4) (by decide)

theorem prefix_isInfix {w l : Str} (h : w <+: l) : w <:+: l := by
  obtain ⟨t, ht⟩ := h
  exact ⟨[], t, by simpa using ht⟩

theorem infix_append_split {w l1 l2 : Str} (h : w <:+: l1 ++ l2) :
    w <:+: l1 ∨ w <:+: l2 ∨
      ∃ s1 s2, w = s1 ++ s2 ∧ s1 ≠ [] ∧ s2 ≠ [] ∧ s1 <:+ l1 ∧ s2 <+: l2 := by
  induction l1 with
  | nil => simp at h; exact Or.inr (Or.inl h)
  | cons a l1' ih =>
    rw [List.cons_append, List.infix_cons_iff] at h
    rcases h with h | h
    · cases w with
      | nil => exact Or.inl List.nil_infix
      | cons b w' =>
        rw [List.cons_prefix_cons] at h
        obtain ⟨rfl, hw'⟩ := h
        rcases List.prefix_or_prefix_of_prefix hw' (List.prefix_append l1' l2) with h2 | h2
        · exact Or.inl (prefix_isInfix (List.cons_prefix_cons.2 ⟨rfl, h2⟩))
        · obtain ⟨w'', rfl⟩ := h2
          have hw'' : w'' <+: l2 := (List.prefix_append_right_inj l1').1 hw'
          cases w'' with
          | nil =>
            refine Or.inl (prefix_isInfix ?_)
            simp
          | cons e w3 =>
            exact Or.inr (Or.inr ⟨b :: l1', e :: w3, by simp, by simp, by simp,
              List.suffix_rfl, hw''⟩)
    · rcases ih h with h2 | h2 | ⟨s1, s2, heq, hs1, hs2, hsuf, hpre⟩
      · exact Or.inl (List.infix_cons h2)
      · exact Or.inr (Or.inl h2)
      · exact Or.inr (Or.inr ⟨s1, s2, heq, hs1, hs2, hsuf.trans (List.suffix_cons a l1'), hpre⟩)

theorem suffix_placeholder_mem {k s : Str} (hs : s ≠ []) (h : s <:+ placeholder k) :
    '>' ∈ s := by
  have hrev : s.reverse <+: (placeholder k).reverse := List.reverse_prefix.2 h
  have hform : (placeholder k).reverse = '>' :: (k.reverse ++ ['<']) := by
    simp [placeholder]
  rw [hform] at hrev
  cases hsr : s.reverse with
  | nil => exact absurd (by simpa using congrArg List.reverse hsr) hs
  | cons d w =>
    rw [hsr, List.cons_prefix_cons] at hrev
    have hd : d ∈ s := by
      have : d ∈ s.reverse := by simp [hsr]
      simpa using this
    rwa [hrev.1] at hd

theorem replaceLoop_nil (v0 : Char) (vt r : Str) (n : Nat) : replaceLoop v0 vt r n [] = [] := by
  cases n <;> rfl

theorem replaceLoop_cons (v0 : Char) (vt r : Str) (n : Nat) (c : Char) (t : Str) :
    replaceLoop v0 vt r (n + 1) (c :: t) =
      if (v0 :: vt) <+: (c :: t) then r ++ replaceLoop v0 vt r n (t.drop vt.length)
      else c :: replaceLoop v0 vt r n t :=
  rfl

theorem replaceLoop_prefix_chase (v0 : Char) (vt rr : Str) :
    ∀ n t s, t.length ≤ n → '<' ∉ s → s <+: replaceLoop v0 vt ('<' :: rr) n t →
      s = [] ∨ s <+: t := by
  intro n
  induction n with
  | zero =>
    intro t s ht hlt hpre
    have hnil : t = [] := List.eq_nil_of_length_eq_zero (by omega)
    subst hnil
    rw [replaceLoop_nil] at hpre
    exact Or.inl (List.prefix_nil.1 hpre)
  | succ n ih =>
    intro t s ht hlt hpre
    cases t with
    | nil =>
      rw [replaceLoop_nil] at hpre
      exact Or.inl (List.prefix_nil.1 hpre)
    | cons c t' =>
      rw [replaceLoop_cons] at hpre
      split at hpre
      next hmatch =>
        cases s with
        | nil => exact Or.inl rfl
        | cons d s' =>
          rw [List.cons_append, List.cons_prefix_cons] at hpre
          exact absurd (hpre.1 ▸ List.mem_cons_self d s') hlt
      next hmatch =>
        cases s with
        | nil => exact Or.inl rfl
        | cons d s' =>
          rw [List.cons_prefix_cons] at hpre
          obtain ⟨rfl, hs'⟩ := hpre
          have hlt' : '<' ∉ s' := fun hm => hlt (List.mem_cons_of_mem _ hm)
          rcases ih t' s' (by simpa using ht) hlt' hs' with h | h
          · subst h
            exact Or.inr (by simp)
          · exact Or.inr (List.cons_prefix_cons.2 ⟨rfl, h⟩)

theorem infix_single {v : Str} {x : Char} (h : v <:+: [x]) : v = [] ∨ v = [x] := by
  cases v with
  | nil => exact Or.inl rfl
  | cons d v' =>
    right
    have hlen : (d :: v').length ≤ 1 := h.length_le
    have : v' = [] := by
      cases v' with
      | nil => rfl
      | cons e v'' => simp at hlen
    subst this
    exact h.eq_of_length (by simp)

theorem not_infix_placeholder {v k : Str} (hne : v ≠ []) (hlt : '<' ∉ v) (hgt : '>' ∉ v)
    (hk : ¬ v <:+: k) : ¬ v <:+: placeholder k := by
  intro h
  rw [placeholder, List.infix_cons_iff] at h
  rcases h with h | h
  · cases v with
    | nil => exact hne rfl
    | cons d v' =>
      rw [List.cons_prefix_cons] at h
      exact hlt (h.1 ▸ List.mem_cons_self d v')
  · rcases infix_append_split h with h2 | h2 | ⟨s1, s2, heq, hs1, hs2, hsuf, hpre2⟩
    · exact hk h2
    · rcases infix_single h2 with h3 | h3
      · exact hne h3
      · exact hgt (h3 ▸ List.mem_cons_self _ _)
    · cases s2 with
      | nil => exact hs2 rfl
      | cons e s2' =>
        rw [List.cons_prefix_cons] at hpre2
        refine hgt ?_
        rw [heq, hpre2.1]
        exact List.mem_append_right _ (List.mem_cons_self _ _)

theorem replaceLoop_no_occurrence (v0 : Char) (vt k : Str)
    (hlt : '<' ∉ v0 :: vt) (hgt : '>' ∉ v0 :: vt)
    (hnk : ¬ (v0 :: vt) <:+: placeholder k) :
    ∀ n t, t.length ≤ n → ¬ (v0 :: vt) <:+: replaceLoop v0 vt (placeholder k) n t := by
  intro n
  induction n with
  | zero =>
    intro t ht h
    have hnil : t = [] := List.eq_nil_of_length_eq_zero (by omega)
    subst hnil
    rw [replaceLoop_nil] at h
    simp at h
  | succ n ih =>
    intro t ht h
    cases t with
    | nil =>
      rw [replaceLoop_nil] at h
      simp at h
    | cons c t' =>
      rw [replaceLoop_cons] at h
      split at h
      next hmatch =>
        rcases infix_append_split h with h2 | h2 | ⟨s1, s2, heq, hs1, hs2, hsuf, hpre2⟩
        · exact hnk h2
        · exact ih (t'.drop vt.length) (by simp at ht ⊢; omega) h2
        · exact hgt (heq ▸ List.mem_append_left _ (suffix_placeholder_mem hs1 hsuf))
      next hmatch =>
        rw [List.infix_cons_iff] at h
        rcases h with h | h
        · rw [List.cons_prefix_cons] at h
          obtain ⟨rfl, hvt⟩ := h
          have hlt' : '<' ∉ vt := fun hm => hlt (List.mem_cons_of_mem _ hm)
          rcases replaceLoop_prefix_chase v0 vt (k ++ ['>']) n t' vt
              (by simpa using ht) hlt' (by simpa [placeholder] using hvt) with h2 | h2
          · subst h2
            exact hmatch (by simp)
          · exact hmatch (List.cons_prefix_cons.2 ⟨rfl, h2⟩)
        · exact ih t' (by simpa using ht) h

theorem replaceLoop_preserve (w0 : Char) (wt k' : Str) {v : Str} (hvne : v ≠ [])
    (hlt : '<' ∉ v) (hgt : '>' ∉ v) (hnp : ¬ v <:+: placeholder k') :
    ∀ n t, t.length ≤ n → ¬ v <:+: t → ¬ v <:+: replaceLoop w0 wt (placeholder k') n t := by
  intro n
  induction n with
  | zero =>
    intro t ht htnot h
    have hnil : t = [] := List.eq_nil_of_length_eq_zero (by omega)
    subst hnil
    rw [replaceLoop_nil] at h
    exact hvne (List.eq_nil_of_infix_nil h)
  | succ n ih =>
    intro t ht htnot h
    cases t with
    | nil =>
      rw [replaceLoop_nil] at h
      exact hvne (List.eq_nil_of_infix_nil h)
    | cons c t' =>
      have htnot' : ¬ v <:+: t' := fun hm => htnot (List.infix_cons hm)
      rw [replaceLoop_cons] at h
      split at h
      next hmatch =>
        rcases infix_append_split h with h2 | h2 | ⟨s1, s2, heq, hs1, hs2, hsuf, hpre2⟩
        · exact hnp h2
        · refine ih (t'.drop wt.length) (by simp at ht ⊢; omega) ?_ h2
          intro hm
          exact htnot' (hm.trans (List.drop_suffix wt.length t').isInfix)
        · exact hgt (heq ▸ List.mem_append_left _ (suffix_placeholder_mem hs1 hsuf))
      next hmatch =>
        rw [List.infix_cons_iff] at h
        rcases h with h | h
        · cases v with
          | nil => exact hvne rfl
          | cons d v' =>
            rw [List.cons_prefix_cons] at h
            obtain ⟨rfl, hv'⟩ := h
            have hlt' : '<' ∉ v' := fun hm => hlt (List.mem_cons_of_mem _ hm)
            rcases replaceLoop_prefix_chase w0 wt (k' ++ ['>']) n t' v'
                (by simpa using ht) hlt' (by simpa [placeholder] using hv') with h2 | h2
            · subst h2
              exact htnot (prefix_isInfix (by simp))
            · exact htnot (prefix_isInfix (List.cons_prefix_cons.2 ⟨rfl, h2⟩))
        · exact ih t' (by simpa using ht) htnot' h

theorem suffix_of_cons_suffix {d : Char} {s' Y : Str} (h : d :: s' <:+ Y) : s' <:+ Y := by
  obtain ⟨u, hu⟩ := h
  exact ⟨u ++ [d], by simpa using hu⟩

theorem replaceLoop_suffix_chase (v0 : Char) (vt k : Str) (hk : '<' ∉ k) :
    ∀ n t s, t.length ≤ n → s <:+ (k ++ ['>']) → s ≠ [] →
      s <+: replaceLoop v0 vt (placeholder k) n t → s <+: t := by
  intro n
  induction n with
  | zero =>
    intro t s ht hsuf hne hpre
    have hnil : t = [] := List.eq_nil_of_length_eq_zero (by omega)
    subst hnil
    rw [replaceLoop_nil] at hpre
    exact absurd (List.prefix_nil.1 hpre) hne
  | succ n ih =>
    intro t s ht hsuf hne hpre
    cases t with
    | nil =>
      rw [replaceLoop_nil] at hpre
      exact absurd (List.prefix_nil.1 hpre) hne
    | cons c t' =>
      rw [replaceLoop_cons] at hpre
      split at hpre
      next hmatch =>
        cases s with
        | nil => exact absurd rfl hne
        | cons d s' =>
          rw [placeholder, List.cons_append, List.cons_prefix_cons] at hpre
          have hd : d ∈ k ++ ['>'] := hsuf.mem (List.mem_cons_self d s')
          rw [hpre.1] at hd
          simp at hd
          exact absurd hd hk
      next hmatch =>
        cases s with
        | nil => exact absurd rfl hne
        | cons d s' =>
          rw [List.cons_prefix_cons] at hpre
          obtain ⟨rfl, hs'⟩ := hpre
          cases hs'e : s' with
          | nil => simp
          | cons e s'' =>
            rw [← hs'e]
            have hsuf' : s' <:+ (k ++ ['>']) := suffix_of_cons_suffix hsuf
            have h2 := ih t' s' (by simpa using ht) hsuf' (by simp [hs'e]) hs'
            exact List.cons_prefix_cons.2 ⟨rfl, h2⟩

theorem placeholder_length (k : Str) : (placeholder k).length = k.length + 2 := by
  simp [placeholder]

theorem replaceLoop_roundtrip (v0 : Char) (vt k : Str) (hk : '<' ∉ k) :
    ∀ n t, t.length ≤ n → ∀ m, (replaceLoop v0 vt (placeholder k) n t).length ≤ m →
      ¬ placeholder k <:+: t →
      replaceLoop '<' (k ++ ['>']) (v0 :: vt) m (replaceLoop v0 vt (placeholder k) n t)
        = t := by
  intro n
  induction n with
  | zero =>
    intro t ht m hm hnp
    have hnil : t = [] := List.eq_nil_of_length_eq_zero (by omega)
    subst hnil
    rw [replaceLoop_nil, replaceLoop_nil]
  | succ n ih =>
    intro t ht m hm hnp
    cases t with
    | nil => rw [replaceLoop_nil, replaceLoop_nil]
    | cons c t' =>
      have hnp' : ¬ placeholder k <:+: t' := fun hmem => hnp (List.infix_cons hmem)
      rw [replaceLoop_cons] at hm ⊢
      split at hm
      next hmatch =>
        rw [if_pos hmatch]
        obtain ⟨rfl, hvt⟩ := List.cons_prefix_cons.1 hmatch
        obtain ⟨u, hu⟩ := hvt
        have hple := placeholder_length k
        have hm1 : 1 ≤ m := by
          rw [List.length_append, hple] at hm
          omega
        obtain ⟨m', rfl⟩ : ∃ m', m = m' + 1 := ⟨m - 1, by omega⟩
        have hdropa : placeholder k ++ replaceLoop v0 vt (placeholder k) n (t'.drop vt.length)
            = '<' :: ((k ++ ['>'])
                ++ replaceLoop v0 vt (placeholder k) n (t'.drop vt.length)) := by
          simp [placeholder]
        rw [hdropa, replaceLoop_cons,
          if_pos (List.cons_prefix_cons.2 ⟨rfl, List.prefix_append _ _⟩)]
        have hdropb : ((k ++ ['>'])
              ++ replaceLoop v0 vt (placeholder k) n (t'.drop vt.length)).drop
              (k ++ ['>']).length
            = replaceLoop v0 vt (placeholder k) n (t'.drop vt.length) := by
          rw [List.drop_left]
        rw [hdropb]
        have hdrop' : t'.drop vt.length = u := by
          rw [← hu, List.drop_left]
        have hul : u.length ≤ t'.length := by rw [← hu]; simp
        have hxm : (replaceLoop v0 vt (placeholder k) n (t'.drop vt.length)).length ≤ m' := by
          rw [List.length_append, hple] at hm
          omega
        rw [hdrop'] at hxm ⊢
        rw [ih u (by simp at ht; omega) m' hxm
          (fun hmem => hnp' (hu ▸ hmem.trans (List.suffix_append vt u).isInfix)),
          ← hu]
        simp
      next hmatch =>
        rw [if_neg hmatch]
        have hm1 : 1 ≤ m := by
          rw [List.length_cons] at hm
          omega
        obtain ⟨m', rfl⟩ : ∃ m', m = m' + 1 := ⟨m - 1, by omega⟩
        have hcond : ¬ ('<' :: (k ++ ['>']))
            <+: (c :: replaceLoop v0 vt (placeholder k) n t') := by
          intro hpre
          obtain ⟨heq, htailpre⟩ := List.cons_prefix_cons.1 hpre
          have h2 := replaceLoop_suffix_chase v0 vt k hk n t' (k ++ ['>'])
            (by simpa using ht) List.suffix_rfl (by simp) htailpre
          exact hnp (prefix_isInfix (by
            rw [placeholder, ← heq]
            exact List.cons_prefix_cons.2 ⟨rfl, h2⟩))
        rw [replaceLoop_cons, if_neg hcond,
          ih t' (by simpa using ht) m' (by rw [List.length_cons] at hm; omega) hnp']

/-- Single-secret textual round trip: replacing every occurrence of a
nonempty value `v` by the placeholder `<k>` and then replacing the
placeholder back restores the original text, provided the name `k`
contains neither `'<'` nor `'$'`, the value contains no `'$'` (so no
`GetSubstitution` pattern fires in either replacement), and the text
contains no placeholder already. -/
theorem replaceAll_roundtrip {v k t : Str} (hv : v ≠ []) (hk : '<' ∉ k)
    (hkd : '$' ∉ k) (hvd : '$' ∉ v)
    (ht : ¬ placeholder k <:+: t) :
    replaceAll (replaceAll t v (placeholder k)) (placeholder k) v = t := by
  rw [replaceAll_no_dollar t v (placeholder k) (dollar_not_placeholder hkd)]
  rw [replaceAll_no_dollar _ (placeholder k) v hvd]
  cases v with
  | nil => exact absurd rfl hv
  | cons v0 vt =>
    rw [placeholder]
    show replaceLoop '<' (k ++ ['>']) (v0 :: vt)
        (replaceLoop v0 vt (placeholder k) t.length t).length
        (replaceLoop v0 vt (placeholder k) t.length t) = t
    exact replaceLoop_roundtrip v0 vt k hk t.length t (le_refl _) _ (le_refl _) ht

/-- After replacing every occurrence of the nonempty value `v` by the
placeholder `<k>`, no occurrence of `v` remains, provided `v` contains
neither `'<'` nor `'>'`, the name `k` contains no `'$'` (the placeholder
is inserted verbatim) and `v` is not a substring of `k`. -/
theorem replaceAll_no_occurrence {v k : Str} (hv : v ≠ []) (hlt : '<' ∉ v) (hgt : '>' ∉ v)
    (hkd : '$' ∉ k) (hvk : ¬ v <:+: k) (t : Str) :
    ¬ v <:+: replaceAll t v (placeholder k) := by
  rw [replaceAll_no_dollar t v (placeholder k) (dollar_not_placeholder hkd)]
  cases v with
  | nil => exact absurd rfl hv
  | cons v0 vt =>
    exact replaceLoop_no_occurrence v0 vt k hlt hgt
      (not_infix_placeholder hv hlt hgt hvk) t.length t (le_refl _)

/- SHA-1 (FIPS 180-4), modelling Node's `crypto.createHash('sha1')` as used
by `calculateSha1` in `src/src/cache.ts`.  Words are naturals reduced
modulo `2 ^ 32`. -/

/-- UTF-8 encoding of one code point. -/
def utf8Char (c : Char) : List Nat :=
  let n := c.toNat
  if n < 0x80 then [n]
  else if n < 0x800 then [0xc0 + n / 0x40, 0x80 + n % 0x40]
  else if n < 0x10000 then [0xe0 + n / 0x1000, 0x80 + n / 0x40 % 0x40, 0x80 + n % 0x40]
  else [0xf0 + n / 0x40000, 0x80 + n / 0x1000 % 0x40, 0x80 + n / 0x40 % 0x40, 0x80 + n % 0x40]

/-- UTF-8 encoding of a string (Node hashes the UTF-8 bytes). -/
def utf8 (s : Str) : List Nat := s.flatMap utf8Char

/-- Left-rotation of a 32-bit word. -/
def rotl (k n : Nat) : Nat :=
  ((n <<< k) % 2 ^ 32) ||| (n >>> (32 - k))

/-- SHA-1 padding: append `0x80`, zero-fill to 56 mod 64, then the
64-bit big-endian bit length. -/
def sha1pad (msg : List Nat) : List Nat :=
  let len := msg.length
  let zeros := (55 + 64 - len % 64) % 64
  let bitLen := 8 * len
  msg ++ 0x80 :: List.replicate zeros 0 ++
    [bitLen / 2 ^ 56 % 256, bitLen / 2 ^ 48 % 256, bitLen / 2 ^ 40 % 256,
     bitLen / 2 ^ 32 % 256, bitLen / 2 ^ 24 % 256, bitLen / 2 ^ 16 % 256,
     bitLen / 2 ^ 8 % 256, bitLen % 256]

/-- Big-endian 32-bit words from bytes. -/
def toWords : List Nat → List Nat
  | b0 :: b1 :: b2 :: b3 :: rest => (((b0 * 256 + b1) * 256 + b2) * 256 + b3) :: toWords rest
  | _ => []

/-- The 80-word message schedule, built left to right. -/
def sha1schedule (w : List Nat) (i : Nat) : List Nat :=
  match i with
  | 0 => w
  | i + 1 =>
    let prev := sha1schedule w i
    if prev.length < 80 then
      prev ++ [rotl 1 ((prev.getD (prev.length - 3) 0 ^^^ prev.getD (prev.length - 8) 0 ^^^
        prev.getD (prev.length - 14) 0 ^^^ prev.getD (prev.length - 16) 0))]
    else prev

/-- One round of the SHA-1 compression function. -/
def sha1round (state : Nat × Nat × Nat × Nat × Nat) (i w : Nat) :
    Nat × Nat × Nat × Nat × Nat :=
  let (a, b, c, d, e) := state
  let f :=
    if i < 20 then (b &&& c) ||| ((2 ^ 32 - 1 - b) &&& d)
    else if i < 40 then b ^^^ c ^^^ d
    else if i < 60 then (b &&& c) ||| (b &&& d) ||| (c &&& d)
    else b ^^^ c ^^^ d
  let kc :=
    if i < 20 then 0x5a827999
    else if i < 40 then 0x6ed9eba1
    else if i < 60 then 0x8f1bbcdc
    else 0xca62c1d6
  let temp := (rotl 5 a + f + e + kc + w) % 2 ^ 32
  (temp, a, rotl 30 b, c, d)

/-- Process one 64-byte chunk. -/
def sha1chunk (h : Nat × Nat × Nat × Nat × Nat) (chunk : List Nat) :
    Nat × Nat × Nat × Nat × Nat :=
  let ws := sha1schedule (toWords chunk) 64
  let (h0, h1, h2, h3, h4) := h
  let final := (ws.enum.foldl (fun st p => sha1round st p.1 p.2) (h0, h1, h2, h3, h4))
  let (a, b, c, d, e) := final
  ((h0 + a) % 2 ^ 32, (h1 + b) % 2 ^ 32, (h2 + c) % 2 ^ 32, (h3 + d) % 2 ^ 32,
    (h4 + e) % 2 ^ 32)

/-- Split into 64-byte chunks. -/
def chunks64 (l : List Nat) : List (List Nat) :=
  if h : l = [] then []
  else if l.length ≤ 64 then [l]
  else l.take 64 :: chunks64 (l.drop 64)
termination_by l.length
decreasing_by simp; omega

/-- Lower-case hexadecimal digits of one 32-bit word. -/
def hex8 (n : Nat) : Str :=
  (List.range 8).map (fun i =>
    let d := n / 2 ^ (4 * (7 - i)) % 16
    if d < 10 then Char.ofNat (48 + d) else Char.ofNat (87 + d))

/-- `crypto.createHash('sha1').update(text).digest('hex')`. -/
def sha1hex (text : Str) : Str :=
  let bytes := sha1pad (utf8 text)
  let (h0, h1, h2, h3, h4) := (chunks64 bytes).foldl sha1chunk
    (0x67452301, 0xefcdab89, 0x98badcfe, 0x10325476, 0xc3d2e1f0)
  hex8 h0 ++ hex8 h1 ++ hex8 h2 ++ hex8 h3 ++ hex8 h4


/- The pretty printer `JSON.stringify(x, null, 2)` used in the
force-cache error message of `cachedComplete`. -/

/-- Two spaces of indentation per depth level. -/
def indentStr (d : Nat) : Str := List.replicate (2 * d) ' '

mutual
def stringifyInd (d : Nat) : Json → Str
  | .arr .nil => '[' :: ']' :: []
  | .arr (.cons x tl) =>
      '[' :: '\n' :: (indentStr (d + 1) ++ stringifyInd (d + 1) x ++ stringifyIndItems (d + 1) tl)
        ++ '\n' :: (indentStr d ++ [']'])
  | .obj .nil => '{' :: '}' :: []
  | .obj (.cons k v tl) =>
      '{' :: '\n' :: (indentStr (d + 1) ++ encodeString k ++ ':' :: ' ' ::
          stringifyInd (d + 1) v ++ stringifyIndMembers (d + 1) tl)
        ++ '\n' :: (indentStr d ++ ['}'])
  | x => stringify x

def stringifyIndItems (d : Nat) : JList → Str
  | .nil => []
  | .cons x tl => ',' :: '\n' :: (indentStr d ++ stringifyInd d x ++ stringifyIndItems d tl)

def stringifyIndMembers (d : Nat) : JFields → Str
  | .nil => []
  | .cons k v tl => ',' :: '\n' :: (indentStr d ++ encodeString k ++ ':' :: ' ' ::
      stringifyInd d v ++ stringifyIndMembers d tl)
end

/-- `JSON.stringify(x, null, 2)`. -/
def stringifyPretty (x : Json) : Str := stringifyInd 0 x

/- The replay cache of `src/src/cache.ts`.  A `ReplayCache` is a JavaScript
object mapping hex fingerprints to recorded replies; property assignment
overwrites in place or appends (insertion order preserved). -/

abbrev ReplayCache := List (Str × Json)

/-- Property read `cache[key]`. -/
def cacheLookup (cache : ReplayCache) (key : Str) : Option Json :=
  match cache with
  | [] => none
  | (k, v) :: rest => if k = key then some v else cacheLookup rest key

/-- Property write `cache[key] = v`. -/
def cacheStore (cache : ReplayCache) (key : Str) (v : Json) : ReplayCache :=
  match cache with
  | [] => [(key, v)]
  | (k, w) :: rest => if k = key then (k, v) :: rest else (k, w) :: cacheStore rest key v

/-- The `secrets` record: names to values, in insertion order
(`Object.entries` iterates in that order). -/
abbrev Secrets := List (Str × Str)

/-- `hideSecrets` (src/src/cache.ts): stringify, replace every secret value
by its `<name>` placeholder, re-parse.  `JSON.parse` throwing is modelled
by `Except.error`. -/
def hideSecrets (conversation : Json) (secrets : Secrets) : Except Str Json :=
  let text := secrets.foldl
    (fun t kv => replaceAll t kv.2 (placeholder kv.1)) (stringify conversation)
  match parse text with
  | some j => Except.ok j
  | none => Except.error ('J' :: 'S' :: 'O' :: 'N' :: '.' :: 'p' :: 'a' :: 'r' :: 's' :: 'e' :: [])

/-- `unhideSecrets` (src/src/cache.ts): stringify, replace every `<name>`
placeholder back by the secret value, re-parse. -/
def unhideSecrets (message : Json) (secrets : Secrets) : Except Str Json :=
  let text := secrets.foldl
    (fun t kv => replaceAll t (placeholder kv.1) kv.2) (stringify message)
  match parse text with
  | some j => Except.ok j
  | none => Except.error ('J' :: 'S' :: 'O' :: 'N' :: '.' :: 'p' :: 'a' :: 'r' :: 's' :: 'e' :: [])

/-- `calculateSha1` (src/src/cache.ts). -/
def calculateSha1 (text : Str) : Str := sha1hex text

/-- The `caches` argument of `cachedComplete`. -/
structure ReplayCaches where
  input : ReplayCache
  output : ReplayCache
  secrets : Secrets

/-- The two environment flags `cachedComplete` reads. -/
structure CacheEnv where
  noCache : Bool
  forceCache : Bool

/-- `cachedComplete` (src/src/cache.ts) with caches present.  The provider
is modelled as a pure function from the conversation to its reply; the
result is the outcome (reply or thrown error), the updated `output`
cache, and how many times the provider was invoked. -/
def cachedCompleteWith (provider : Json → Json) (conversation : Json)
    (caches : ReplayCaches) (env : CacheEnv) :
    Except Str Json × ReplayCache × Nat :=
  match hideSecrets conversation caches.secrets with
  | Except.error e => (Except.error e, caches.output, 0)
  | Except.ok c =>
    let key := calculateSha1 (stringify c)
    if hin : env.noCache = false ∧ (cacheLookup caches.input key).isSome = true then
      let entry := (cacheLookup caches.input key).get hin.2
      (unhideSecrets entry caches.secrets, cacheStore caches.output key entry, 0)
    else if hout : env.noCache = false ∧ (cacheLookup caches.output key).isSome = true then
      let entry := (cacheLookup caches.output key).get hout.2
      (unhideSecrets entry caches.secrets, caches.output, 0)
    else if env.forceCache then
      (Except.error ("Cache missing but TL_FORCE_CACHE is set".toList
        ++ stringifyPretty conversation), caches.output, 0)
    else
      let result := provider conversation
      match hideSecrets result caches.secrets with
      | Except.ok hidden => (Except.ok result, cacheStore caches.output key hidden, 1)
      | Except.error e => (Except.error e, caches.output, 1)

/-- `cachedComplete` (src/src/cache.ts): without caches the provider is
called directly. -/
def cachedComplete (provider : Json → Json) (conversation : Json)
    (caches : Option ReplayCaches) (env : CacheEnv) :
    Except Str Json × Option ReplayCache × Nat :=
  match caches with
  | none => (Except.ok (provider conversation), none, 1)
  | some cs =>
    let r := cachedCompleteWith provider conversation cs env
    (r.1, some r.2.1, r.2.2)

/-- C4: with fresh caches (empty output, input lacking the conversation's
fingerprint, neither cache environment flag set), `cachedComplete` invokes
the provider exactly once and records the redacted reply under exactly one
key, the hex SHA-1 of the JSON-stringified secret-redacted conversation;
a second call with the identical conversation and the same caches returns
the recorded reply with secrets restored and does not invoke the provider
again. -/
theorem C4_cachedComplete_fresh_cache_records_once
    (provider : Json → Json) (conversation : Json) (caches : ReplayCaches)
    (env : CacheEnv) (hidden hiddenReply : Json)
    (hhide : hideSecrets conversation caches.secrets = Except.ok hidden)
    (hout : caches.output = [])
    (hmiss : cacheLookup caches.input (calculateSha1 (stringify hidden)) = none)
    (hht : hideSecrets (provider conversation) caches.secrets = Except.ok hiddenReply)
    (henv : env = ⟨false, false⟩) :
    cachedCompleteWith provider conversation caches env
      = (Except.ok (provider conversation),
         [(calculateSha1 (stringify hidden), hiddenReply)], 1)
    ∧ cachedCompleteWith provider conversation
        { caches with output := [(calculateSha1 (stringify hidden), hiddenReply)] } env
      = (unhideSecrets hiddenReply caches.secrets,
         [(calculateSha1 (stringify hidden), hiddenReply)], 0) := by
  subst henv
  constructor
  · rw [cachedCompleteWith, hhide]
    simp [hmiss, hout, hht, cacheStore, cacheLookup]
  · rw [cachedCompleteWith]
    show (match hideSecrets conversation caches.secrets with
      | Except.error e => _
      | Except.ok c => _) = _
    rw [hhide]
    simp [hmiss, cacheLookup]

deriving instance DecidableEq for Except

/-- C4 witness: the hypotheses of `C4_cachedComplete_fresh_cache_records_once`
hold at a concrete conversation, secrets map and provider. -/
theorem C4_witness :
    (hideSecrets (Json.str "hi pw".toList) [("t".toList, "pw".toList)]
        = Except.ok (Json.str "hi <t>".toList)
      ∧ hideSecrets (Json.str "pw".toList) [("t".toList, "pw".toList)]
        = Except.ok (Json.str "<t>".toList))
    ∧ (cachedCompleteWith (fun _ => Json.str "pw".toList) (Json.str "hi pw".toList)
        ⟨[], [], [("t".toList, "pw".toList)]⟩ ⟨false, false⟩
      = (Except.ok (Json.str "pw".toList),
         [(calculateSha1 (stringify (Json.str "hi <t>".toList)), Json.str "<t>".toList)], 1)
      ∧ cachedCompleteWith (fun _ => Json.str "pw".toList) (Json.str "hi pw".toList)
          ⟨[], [(calculateSha1 (stringify (Json.str "hi <t>".toList)), Json.str "<t>".toList)],
            [("t".toList, "pw".toList)]⟩ ⟨false, false⟩
        = (unhideSecrets (Json.str "<t>".toList) [("t".toList, "pw".toList)],
           [(calculateSha1 (stringify (Json.str "hi <t>".toList)), Json.str "<t>".toList)], 0)) :=
  ⟨⟨by decide, by decide⟩,
    C4_cachedComplete_fresh_cache_records_once (fun _ => Json.str "pw".toList)
      (Json.str "hi pw".toList) ⟨[], [], [("t".toList, "pw".toList)]⟩ ⟨false, false⟩
      (Json.str "hi <t>".toList) (Json.str "<t>".toList)
      (by decide) rfl rfl (by decide) rfl⟩

/-- C9 (amended): if caches are provided, `LOWIRE_FORCE_CACHE` is set and
the conversation's fingerprint is in neither the input nor the output
cache, `cachedComplete` fails with an error whose message is the literal
'Cache missing but TL_FORCE_CACHE is set' followed by the pretty-printed
conversation, and does not invoke the provider. -/
theorem C9_force_cache_error_amended
    (provider : Json → Json) (conversation : Json) (caches : ReplayCaches)
    (env : CacheEnv) (hidden : Json)
    (hhide : hideSecrets conversation caches.secrets = Except.ok hidden)
    (hmiss1 : cacheLookup caches.input (calculateSha1 (stringify hidden)) = none)
    (hmiss2 : cacheLookup caches.output (calculateSha1 (stringify hidden)) = none)
    (hforce : env.forceCache = true) :
    cachedCompleteWith provider conversation caches env
      = (Except.error ("Cache missing but TL_FORCE_CACHE is set".toList
          ++ stringifyPretty conversation), caches.output, 0) := by
  rw [cachedCompleteWith, hhide]
  simp [hmiss1, hmiss2, hforce]

/-- C9 witness: the hypotheses of `C9_force_cache_error_amended` hold at a
concrete input. -/
theorem C9_witness :
    (hideSecrets (Json.str "task".toList) [] = Except.ok (Json.str "task".toList))
    ∧ cachedCompleteWith (fun _ => Json.null) (Json.str "task".toList)
        ⟨[], [], []⟩ ⟨false, true⟩
      = (Except.error ("Cache missing but TL_FORCE_CACHE is set".toList
          ++ stringifyPretty (Json.str "task".toList)), [], 0) :=
  ⟨by decide,
    C9_force_cache_error_amended (fun _ => Json.null) (Json.str "task".toList)
      ⟨[], [], []⟩ ⟨false, true⟩ (Json.str "task".toList) (by decide) rfl rfl rfl⟩

/-- C9 counterexample: the thrown message is not the bare literal
'Cache missing but TL_FORCE_CACHE is set' — the code appends the
pretty-printed conversation — so the claim's exact error message is wrong,
though the provider is indeed not invoked. -/
theorem C9_counterexample :
    (cachedCompleteWith (fun _ => Json.null) (Json.str "q".toList) ⟨[], [], []⟩
        ⟨false, true⟩).1
      ≠ Except.error ("Cache missing but TL_FORCE_CACHE is set".toList)
    ∧ (cachedCompleteWith (fun _ => Json.null) (Json.str "q".toList) ⟨[], [], []⟩
        ⟨false, true⟩).1
      = Except.error ("Cache missing but TL_FORCE_CACHE is set".toList
          ++ stringifyPretty (Json.str "q".toList))
    ∧ (cachedCompleteWith (fun _ => Json.null) (Json.str "q".toList) ⟨[], [], []⟩
        ⟨false, true⟩).2.2 = 0 := by
  refine ⟨?_, by decide, by decide⟩
  decide

/-- C5 counterexample: redaction does not round-trip as claimed.  For the
secrets map (a><a ↦ Q) and the JSON string "<a>Q" — whose serialisation
contains no placeholder of the map — hiding then unhiding yields "Q<a>",
not the original value. -/
theorem C5_counterexample :
    ¬ placeholder "a><a".toList <:+: stringify (Json.str "<a>Q".toList)
    ∧ hideSecrets (Json.str "<a>Q".toList) [("a><a".toList, "Q".toList)]
        = Except.ok (Json.str "<a><a><a>".toList)
    ∧ unhideSecrets (Json.str "<a><a><a>".toList) [("a><a".toList, "Q".toList)]
        = Except.ok (Json.str "Q<a>".toList)
    ∧ Json.str "Q<a>".toList ≠ Json.str "<a>Q".toList := by
  refine ⟨by decide, by decide, by decide, by decide⟩

/-- C5 (amended): secret redaction round-trips for a single-entry secrets
map {name ↦ value}: provided the value is nonempty, the name contains
neither '<' nor '$', the value contains no '$' (so neither replacement
triggers an ECMA-262 `$`-substitution), the serialised form of the
original contains no `<name>` placeholder, and the redacted text
re-parses and re-serialises to itself (no replacement disturbs the JSON
structure), unhiding the hidden value restores the original. -/
theorem C5_secret_redaction_roundtrip_amended (x h : Json) (k v : Str)
    (hv : v ≠ []) (hk : '<' ∉ k) (hkd : '$' ∉ k) (hvd : '$' ∉ v)
    (hnp : ¬ placeholder k <:+: stringify x)
    (hh : hideSecrets x [(k, v)] = Except.ok h)
    (hcanon : stringify h = replaceAll (stringify x) v (placeholder k)) :
    unhideSecrets h [(k, v)] = Except.ok x := by
  rw [unhideSecrets]
  simp only [List.foldl_cons, List.foldl_nil]
  rw [hcanon, replaceAll_roundtrip hv hk hkd hvd hnp, parse_stringify]

/-- C5 witness: the hypotheses of `C5_secret_redaction_roundtrip_amended`
hold at a concrete value and secrets map. -/
theorem C5_witness :
    ("pw".toList ≠ ([] : Str) ∧ '<' ∉ "t".toList
      ∧ '$' ∉ "t".toList ∧ '$' ∉ "pw".toList
      ∧ ¬ placeholder "t".toList <:+: stringify (Json.str "hi pw hi".toList)
      ∧ hideSecrets (Json.str "hi pw hi".toList) [("t".toList, "pw".toList)]
          = Except.ok (Json.str "hi <t> hi".toList)
      ∧ stringify (Json.str "hi <t> hi".toList)
          = replaceAll (stringify (Json.str "hi pw hi".toList)) "pw".toList
              (placeholder "t".toList))
    ∧ unhideSecrets (Json.str "hi <t> hi".toList) [("t".toList, "pw".toList)]
        = Except.ok (Json.str "hi pw hi".toList) :=
  ⟨⟨by decide, by decide, by decide, by decide, by decide, by decide, by decide⟩,
    C5_secret_redaction_roundtrip_amended (Json.str "hi pw hi".toList)
      (Json.str "hi <t> hi".toList) "t".toList "pw".toList
      (by decide) (by decide) (by decide) (by decide) (by decide) (by decide) (by decide)⟩

/-- C6 counterexample: a stored output-cache entry is not always redacted.
With the secrets map (a ↦ "b>", b ↦ "y") and a provider reply "y", the
recorded entry is the JSON string "<b>", whose serialisation contains the
secret value "b>" of the first secret. -/
theorem C6_counterexample :
    ((cachedCompleteWith (fun _ => Json.str "y".toList) (Json.str "c".toList)
        ⟨[], [], [("a".toList, "b>".toList), ("b".toList, "y".toList)]⟩
        ⟨false, false⟩).2.1.map Prod.snd = [Json.str "<b>".toList])
    ∧ "b>".toList <:+: stringify (Json.str "<b>".toList)
    ∧ (cachedCompleteWith (fun _ => Json.str "y".toList) (Json.str "c".toList)
        ⟨[], [], [("a".toList, "b>".toList), ("b".toList, "y".toList)]⟩
        ⟨false, false⟩).1 = Except.ok (Json.str "y".toList) := by
  refine ⟨by decide, by decide, by decide⟩

/-- C6 (amended): for a single-entry secrets map {name ↦ value} whose name
contains no '$' (so the inserted placeholder is verbatim, no ECMA-262
`$`-substitution fires) and whose value is nonempty, contains neither '<'
nor '>', and is not a substring of the name, and whose redaction of the
provider reply re-serialises identically, a cache-miss call stores
exactly the redacted reply — its serialisation contains no occurrence of
the secret value — while the raw reply with secrets intact is only
returned to the caller. -/
theorem C6_output_cache_redacted_amended
    (provider : Json → Json) (conversation : Json) (caches : ReplayCaches)
    (env : CacheEnv) (k v : Str) (hidden hiddenReply : Json)
    (hsec : caches.secrets = [(k, v)])
    (hv : v ≠ []) (hlt : '<' ∉ v) (hgt : '>' ∉ v) (hkd : '$' ∉ k) (hvk : ¬ v <:+: k)
    (hhide : hideSecrets conversation caches.secrets = Except.ok hidden)
    (hmiss1 : cacheLookup caches.input (calculateSha1 (stringify hidden)) = none)
    (hmiss2 : cacheLookup caches.output (calculateSha1 (stringify hidden)) = none)
    (hforce : env.forceCache = false)
    (hht : hideSecrets (provider conversation) caches.secrets = Except.ok hiddenReply)
    (hcanon : stringify hiddenReply
        = replaceAll (stringify (provider conversation)) v (placeholder k)) :
    cachedCompleteWith provider conversation caches env
      = (Except.ok (provider conversation),
         cacheStore caches.output (calculateSha1 (stringify hidden)) hiddenReply, 1)
    ∧ ¬ v <:+: stringify hiddenReply := by
  constructor
  · rw [cachedCompleteWith, hhide]
    simp [hmiss1, hmiss2, hforce, hht]
  · rw [hcanon]
    exact replaceAll_no_occurrence hv hlt hgt hkd hvk _

/-- C6 witness: the hypotheses of `C6_output_cache_redacted_amended` hold
at a concrete provider, conversation and secrets map. -/
theorem C6_witness :
    (hideSecrets (Json.str "go".toList) [("t".toList, "pw".toList)]
        = Except.ok (Json.str "go".toList)
      ∧ '$' ∉ "t".toList
      ∧ hideSecrets (Json.str "pw".toList) [("t".toList, "pw".toList)]
        = Except.ok (Json.str "<t>".toList)
      ∧ stringify (Json.str "<t>".toList)
        = replaceAll (stringify (Json.str "pw".toList)) "pw".toList
            (placeholder "t".toList))
    ∧ (cachedCompleteWith (fun _ => Json.str "pw".toList) (Json.str "go".toList)
        ⟨[], [], [("t".toList, "pw".toList)]⟩ ⟨false, false⟩
      = (Except.ok (Json.str "pw".toList),
         cacheStore [] (calculateSha1 (stringify (Json.str "go".toList)))
           (Json.str "<t>".toList), 1)
      ∧ ¬ "pw".toList <:+: stringify (Json.str "<t>".toList)) :=
  ⟨⟨by decide, by decide, by decide, by decide⟩,
    C6_output_cache_redacted_amended (fun _ => Json.str "pw".toList)
      (Json.str "go".toList) ⟨[], [], [("t".toList, "pw".toList)]⟩ ⟨false, false⟩
      "t".toList "pw".toList (Json.str "go".toList) (Json.str "<t>".toList)
      rfl (by decide) (by decide) (by decide) (by decide) (by decide) (by decide)
      rfl rfl rfl (by decide) (by decide)⟩

/- Data model of the agent loop (packages/loop/src/types.ts together with
the fields the canonical `Loop.run` uses: `toolError` on assistant
messages, `result` attached to tool_call parts, and the `_meta` channel of
tool results documented in the spec's external-interface section). -/

/-- A text or image part of a tool result. -/
inductive ResultPart where
  | text (text : Str)
  | image (data : Str) (mimeType : Str)
  deriving DecidableEq, Repr

/-- The `_meta` side channel of a tool result: `dev.lowire/history`
entries (category, content) and the `dev.lowire/state` map. -/
structure ToolResultMeta where
  history : List (Str × Str)
  state : List (Str × Str)
  deriving DecidableEq, Repr

/-- A tool result; `meta` models the optional `_meta` field. -/
structure ToolResult where
  content : List ResultPart
  isError : Bool
  meta : Option ToolResultMeta
  deriving DecidableEq, Repr

/-- A `tool_call` content part; `result` is attached in place once the
call completes (the canonical attachment model). -/
structure ToolCallContentPart where
  name : Str
  arguments : Json
  id : Str
  result : Option ToolResult
  deriving DecidableEq, Repr

/-- Assistant content parts. -/
inductive ContentPart where
  | text (text : Str)
  | thinking (thinking : Str) (signature : Str)
  | toolCall (tc : ToolCallContentPart)
  deriving DecidableEq, Repr

/-- An assistant message; `toolError` is set when the message lacked a
tool call. -/
structure AssistantMessage where
  content : List ContentPart
  toolError : Option Str
  deriving DecidableEq, Repr

/-- Conversation messages. -/
inductive Message where
  | user (content : Str)
  | assistant (m : AssistantMessage)
  | toolResultMsg (toolName : Str) (toolCallId : Str) (result : ToolResult)
  deriving DecidableEq, Repr

/-- A tool offered to the model. -/
structure Tool where
  name : Str
  description : Option Str
  inputSchema : Json
  deriving DecidableEq, Repr

/-- A conversation. -/
structure Conversation where
  systemPrompt : Str
  messages : List Message
  tools : List Tool
  deriving DecidableEq, Repr

/-- Token usage. -/
structure Usage where
  input : Nat
  output : Nat
  deriving DecidableEq, Repr

/-- The request passed to the user-supplied `callTool` callback. -/
structure ToolCallRequest where
  name : Str
  arguments : Json
  deriving DecidableEq, Repr

/- The indented-markup renderer `jsx` (packages/loop/src/jsx/jsx-runtime.ts)
and the summariser `summarizeConversation` (summary.ts). -/

/-- JavaScript whitespace test used by `String.prototype.trim` (the
characters that occur in this code base). -/
def isJsWs (c : Char) : Bool := c = ' ' ∨ c = '\n' ∨ c = '\t' ∨ c = '\r'

/-- `s.trim()`. -/
def jsTrim (s : Str) : Str :=
  ((s.dropWhile isJsWs).reverse.dropWhile isJsWs).reverse

/-- `child.split('\n').map(line => '  ' + line).join('\n')`. -/
def indent2 (s : Str) : Str :=
  List.intercalate ['\n'] ((s.splitOn '\n').map (fun l => ' ' :: ' ' :: l))

/-- `jsx(tag, props)`: renders `tag:`, one `  key: value` line per
attribute, and each truthy, non-blank child indented by two spaces, all
joined with newlines.  A `none` child models a falsy JavaScript child
(`undefined` or `false` from a `cond && <el>` expression); the caller
passes the children already flattened one level, as `children.flat()`
does. -/
def jsx (tag : Str) (attrs : List (Str × Str)) (children : List (Option Str)) : Str :=
  let childArray := (children.filterMap id).filter (fun c => jsTrim c ≠ [])
  let lines := (tag ++ [':'])
    :: (attrs.map (fun kv => ' ' :: ' ' :: (kv.1 ++ ':' :: ' ' :: kv.2))
      ++ childArray.map indent2)
  List.intercalate ['\n'] lines

/-- The assistant messages of a conversation, in order. -/
def assistantMessagesOf (messages : List Message) : List AssistantMessage :=
  messages.filterMap (fun m => match m with
    | Message.assistant am => some am
    | _ => none)

/-- The tool_call parts of a content list, in order. -/
def toolCallsOf (content : List ContentPart) : List ToolCallContentPart :=
  content.filterMap (fun p => match p with
    | ContentPart.toolCall tc => some tc
    | _ => none)

/-- The text parts of a content list joined with newlines. -/
def textJoin (content : List ContentPart) : Str :=
  List.intercalate ['\n'] (content.filterMap (fun p => match p with
    | ContentPart.text t => some t
    | _ => none))

/-- Insertion-ordered record write `state[name] = value` for string maps. -/
def stateStore (state : List (Str × Str)) (name value : Str) : List (Str × Str) :=
  match state with
  | [] => [(name, value)]
  | (k, w) :: rest => if k = name then (k, value) :: rest else (k, w) :: stateStore rest name value

/-- The `dev.lowire/state` entries of a tool call's attached result
(empty when absent). -/
def stateOf (tc : ToolCallContentPart) : List (Str × Str) :=
  match tc.result with
  | some r => match r.meta with
    | some m => m.state
    | none => []
  | none => []

/-- The `dev.lowire/history` entries of a tool call's attached result
(empty when absent). -/
def historyOf (tc : ToolCallContentPart) : List (Str × Str) :=
  match tc.result with
  | some r => match r.meta with
    | some m => m.history
    | none => []
  | none => []

/-- The entries of a JSON object, in insertion order (`Object.entries`). -/
def jfieldsToList : JFields → List (Str × Json)
  | .nil => []
  | .cons k v tl => (k, v) :: jfieldsToList tl

/-- The `<step>` block the summariser renders for one past assistant
message. -/
def stepBlock (turn : Nat) (message : AssistantMessage) : Str :=
  let text := textJoin message.content
  let toolCalls := toolCallsOf message.content
  jsx "step".toList [("turn".toList, encodeNat (turn + 1))]
    ([some (jsx "title".toList [] [some text])]
      ++ toolCalls.map (fun tc => some (jsx "tool-call".toList []
        ([some (jsx "name".toList [] [some tc.name])]
          ++ [match tc.arguments with
              | Json.obj JFields.nil => none
              | Json.obj fs =>
                some (jsx "arguments".toList []
                  ((jfieldsToList fs).map (fun kv =>
                    some (jsx kv.1 [] [some (stringify kv.2)]))))
              | _ => none])))
      ++ (toolCalls.flatMap historyOf).map (fun h => some (jsx h.1 [] [some h.2]))
      ++ [message.toolError.map (fun e => jsx "error".toList [] [some e])])

/-- The result of `summarizeConversation`. -/
structure SummaryResult where
  summary : Str
  lastMessage : Option AssistantMessage
  deriving DecidableEq, Repr

/-- The history blocks for assistant messages `0 … N-2`, each preceded by
a blank line, with the `## History` header before the first one
(summary.ts lines 25-55). -/
def historyBlocks (turn : Nat) : List AssistantMessage → List Str
  | [] => []
  | m :: rest =>
    (if turn = 0 then ["".toList, "## History".toList] else [])
      ++ ["".toList, stepBlock turn m]
      ++ historyBlocks (turn + 1) rest

/-- The `dev.lowire/state` entries merged over the given assistant
messages' tool calls, later entries overwriting earlier ones
(summary.ts lines 34-39). -/
def combinedStateOf (msgs : List AssistantMessage) : List (Str × Str) :=
  msgs.foldl (fun acc m =>
    (toolCallsOf m.content).foldl (fun acc2 tc =>
      (stateOf tc).foldl (fun acc3 kv => stateStore acc3 kv.1 kv.2) acc2) acc) []

/-- Record deletion `delete state[name]`. -/
def stateDelete (state : List (Str × Str)) (name : Str) : List (Str × Str) :=
  state.filter (fun kv => kv.1 ≠ name)

/-- `summarizeConversation` (packages/loop/src/summary.ts): renders the
task and all assistant messages but the last as an indented history,
merges the per-result `dev.lowire/state` entries (excluding those of the
last assistant message, which is kept verbatim), and returns the joined
summary together with the untouched last assistant message. -/
def summarizeConversation (task : Str) (conversation : Conversation) : SummaryResult :=
  let assistantMessages := assistantMessagesOf conversation.messages
  let past := assistantMessages.dropLast
  let historyPart := historyBlocks 0 past
  let combined0 := combinedStateOf past
  let lastMessage := assistantMessages.getLast?
  let combined :=
    match lastMessage with
    | none => combined0
    | some m => ((toolCallsOf m.content).flatMap (fun tc => (stateOf tc).map Prod.fst)).foldl
        stateDelete combined0
  let stateLines := combined.flatMap (fun kv =>
    ["".toList, jsx "state".toList [("name".toList, kv.1)] [some kv.2]])
  { summary := List.intercalate ['\n']
      (("## Task".toList :: task :: historyPart) ++ stateLines),
    lastMessage := lastMessage }

/-- `Loop._summarizeConversation` (packages/loop/src/loop.ts lines
451-460): the derived conversation is the summary as a user message
followed by the untouched last assistant message, if any. -/
def loopSummarizeConversation (task : Str) (conversation : Conversation) : Conversation :=
  let r := summarizeConversation task conversation
  { conversation with
    messages := Message.user r.summary
      :: (match r.lastMessage with
          | some m => [Message.assistant m]
          | none => []) }

/- The canonical `Loop.run` (packages/loop/src/loop.ts, the draft with
hooks, inline tool-result attachment and the `toolError` field).  The
provider-plus-cache pipeline (`cachedComplete`) is the completion oracle
`complete`; user hooks are optional functions; `callTool` is a function
returning `Except`, a thrown error being `Except.error`. -/

/-- The result a hook vote can take; an absent hook and a hook returning
`'continue'` or nothing both behave as `cont` (the code only compares
against `'break'` and `'disallow'`). -/
inductive HookStatus where
  | cont
  | brk
  | disallow
  deriving DecidableEq, Repr

/-- Loop options: completion options, the five hooks, tools and loop
controls, as in `LoopOptions` of the canonical draft. -/
structure LoopOptions where
  maxTokens : Option Int := none
  maxTurns : Nat := 0
  tools : List Tool := []
  resultSchema : Option Json := none
  summarize : Bool := false
  callTool : ToolCallRequest → Except Str ToolResult
  onBeforeTurn : Option (Conversation → Usage → Option Int → HookStatus) := none
  onAfterTurn : Option (AssistantMessage → Usage → Option Int → HookStatus) := none
  onBeforeToolCall : Option (AssistantMessage → ToolCallContentPart → HookStatus) := none
  onAfterToolCall : Option (AssistantMessage → ToolCallContentPart → ToolResult → HookStatus) := none
  onToolCallError : Option (AssistantMessage → ToolCallContentPart → Str → HookStatus) := none

/-- The default `report_result` input schema. -/
def defaultResultSchema : Json :=
  Json.obj (jfields [
    ("type".toList, Json.str "object".toList),
    ("properties".toList, Json.obj (jfields [
      ("result".toList, Json.obj (jfields [("type".toList, Json.str "string".toList)]))])),
    ("required".toList, Json.arr (jlist [Json.str "result".toList]))])

/-- The `report_result` tool appended to the tool list. -/
def reportResultTool (resultSchema : Option Json) : Tool :=
  { name := "report_result".toList,
    description := some "Report the result of the task.".toList,
    inputSchema := resultSchema.getD defaultResultSchema }

/-- The tool-list setup at the top of `Loop.run`: the caller's array is
spread into a fresh `allTools` array and `report_result` is pushed onto
the copy, so the caller's array is left exactly as it was.  The result is
the pair (the caller's array after the call, the `allTools` array). -/
def runToolsSetup (tools : List Tool) (resultSchema : Option Json) :
    List Tool × List Tool :=
  (tools, tools ++ [reportResultTool resultSchema])

/-- The fixed agent system prompt. -/
def loopSystemPrompt : Str :=
  '\n' :: ("You are an autonomous agent designed to complete tasks by interacting with tools. Perform the user task.".toList ++ ['\n'])

/-- The `toolError` set on an assistant message without tool calls. -/
def noToolCallError : Str :=
  "Error: tool call is expected in every assistant message. Call the \"report_result\" tool when the task is complete.".toList

/-- The `isError` result attached when `callTool` throws. -/
def errorToolResult (name err : Str) : ToolResult :=
  { content := [ResultPart.text ("Error while executing tool \"".toList ++ name
      ++ "\": ".toList ++ err
      ++ "\n\nPlease try to recover and complete the task.".toList)],
    isError := true,
    meta := none }

/-- The result attached when `onBeforeToolCall` answers `'disallow'`. -/
def disallowedCallResult : ToolResult :=
  { content := [ResultPart.text "Tool call is disallowed.".toList],
    isError := true, meta := none }

/-- The result attached when `onAfterToolCall` answers `'disallow'`. -/
def disallowedReportResult : ToolResult :=
  { content := [ResultPart.text "Tool result is disallowed to be reported.".toList],
    isError := true, meta := none }

/-- Record write on a JSON object (`obj[key] = v`). -/
def jfieldsStore : JFields → Str → Json → JFields
  | .nil, key, v => .cons key v .nil
  | .cons k w tl, key, v =>
    if k = key then .cons k v tl else .cons k w (jfieldsStore tl key v)

/-- The `_meta` object merged into the tool arguments by the loop. -/
def loopMetaObject (intent : Str) : Json :=
  Json.obj (jfields [
    ("dev.lowire/intent".toList, Json.str intent),
    ("dev.lowire/history".toList, Json.bool true),
    ("dev.lowire/state".toList, Json.bool true)])

/-- `{...args, _meta: {...}}`: spread the arguments object and set the
`_meta` property (spreading a non-object yields an object with only
`_meta`, as in JavaScript for the argument shapes the loop passes on). -/
def spreadWithMeta (args : Json) (intent : Str) : Json :=
  match args with
  | Json.obj fs => Json.obj (jfieldsStore fs "_meta".toList (loopMetaObject intent))
  | _ => Json.obj (jfields [("_meta".toList, loopMetaObject intent)])

/-- What `run` returns or throws. -/
inductive RunOutcome where
  | ok (result : Json) (usage : Usage) (turns : Nat)
  | brk (usage : Usage) (turns : Nat)
  | threw (message : Str)
  | summarized (conversation : Conversation)
  deriving Repr

/-- The loop state carried from turn to turn. -/
structure RunState where
  conversation : Conversation
  totalUsage : Usage
  budgetTokens : Option Int
  turns : Nat

/-- The vote of an optional hook (absent hooks continue). -/
def hookVote (vote : Option HookStatus) : HookStatus := vote.getD HookStatus.cont

/-- The per-turn tool dispatch (the `for (const toolCall of toolCalls)`
body): walks the content parts in order, attaching results to tool_call
parts in place; returns the updated parts, the `callTool` invocations
made (in order), and the early return, if any. -/
def dispatchParts (opts : LoopOptions) (am : AssistantMessage) (intent : Str)
    (usage : Usage) (turns : Nat) :
    List ContentPart → List ContentPart × List ToolCallRequest × Option RunOutcome
  | [] => ([], [], none)
  | p :: rest =>
    match p with
    | ContentPart.toolCall tc =>
      if tc.name = "report_result".toList then
        (p :: rest, [], some (RunOutcome.ok tc.arguments usage turns))
      else
        match hookVote (opts.onBeforeToolCall.map (fun f => f am tc)) with
        | HookStatus.brk => (p :: rest, [], some (RunOutcome.brk usage turns))
        | HookStatus.disallow =>
          let r := dispatchParts opts am intent usage turns rest
          (ContentPart.toolCall { tc with result := some disallowedCallResult } :: r.1,
            r.2.1, r.2.2)
        | HookStatus.cont =>
          let req : ToolCallRequest := ⟨tc.name, spreadWithMeta tc.arguments intent⟩
          match opts.callTool req with
          | Except.ok result =>
            match hookVote (opts.onAfterToolCall.map (fun f => f am tc result)) with
            | HookStatus.brk => (p :: rest, [req], some (RunOutcome.brk usage turns))
            | HookStatus.disallow =>
              let r := dispatchParts opts am intent usage turns rest
              (ContentPart.toolCall { tc with result := some disallowedReportResult } :: r.1,
                req :: r.2.1, r.2.2)
            | HookStatus.cont =>
              let r := dispatchParts opts am intent usage turns rest
              (ContentPart.toolCall { tc with result := some result } :: r.1,
                req :: r.2.1, r.2.2)
          | Except.error e =>
            match hookVote (opts.onToolCallError.map (fun f => f am tc e)) with
            | HookStatus.brk => (p :: rest, [req], some (RunOutcome.brk usage turns))
            | _ =>
              let r := dispatchParts opts am intent usage turns rest
              (ContentPart.toolCall { tc with result := some (errorToolResult tc.name e) } :: r.1,
                req :: r.2.1, r.2.2)
    | _ =>
      let r := dispatchParts opts am intent usage turns rest
      (p :: r.1, r.2.1, r.2.2)

/-- One turn of the canonical `Loop.run` loop body: budget check,
optional summarisation, `onBeforeTurn`, completion, usage accounting,
`onAfterTurn`, append of the assistant message, missing-tool-call
handling, tool dispatch.  Returns the early outcome or the next state,
together with the `callTool` invocations made. -/
def runStep (complete : Conversation → Except Str (AssistantMessage × Usage))
    (opts : LoopOptions) (task : Str) (st : RunState) :
    (RunOutcome ⊕ RunState) × List ToolCallRequest :=
  let budgetExhausted : Bool :=
    match st.budgetTokens with
    | some b => decide (b ≤ 0)
    | none => false
  if (opts.maxTokens.getD 0 != 0) && budgetExhausted then
    (Sum.inl (RunOutcome.threw ("Budget tokens ".toList
      ++ encodeInt (opts.maxTokens.getD 0) ++ " exhausted".toList)), [])
  else
    let summarizedConversation :=
      if opts.summarize then loopSummarizeConversation task st.conversation
      else st.conversation
    match hookVote (opts.onBeforeTurn.map
        (fun f => f summarizedConversation st.totalUsage st.budgetTokens)) with
    | HookStatus.brk => (Sum.inl (RunOutcome.brk st.totalUsage st.turns), [])
    | _ =>
      match complete summarizedConversation with
      | Except.error e => (Sum.inl (RunOutcome.threw e), [])
      | Except.ok (assistantMessage, usage) =>
        let intent := textJoin assistantMessage.content
        let totalUsage : Usage := ⟨st.totalUsage.input + usage.input,
          st.totalUsage.output + usage.output⟩
        let budgetTokens := st.budgetTokens.map
          (fun b => b - ((usage.input : Int) + (usage.output : Int)))
        match hookVote (opts.onAfterTurn.map
            (fun f => f assistantMessage totalUsage budgetTokens)) with
        | HookStatus.brk => (Sum.inl (RunOutcome.brk totalUsage st.turns), [])
        | _ =>
          if toolCallsOf assistantMessage.content = [] then
            let amErr := { assistantMessage with toolError := some noToolCallError }
            let conv := { st.conversation with
              messages := st.conversation.messages ++ [Message.assistant amErr] }
            (Sum.inr ⟨conv, totalUsage, budgetTokens, st.turns + 1⟩, [])
          else
            let r := dispatchParts opts assistantMessage intent totalUsage st.turns
              assistantMessage.content
            match r.2.2 with
            | some outcome => (Sum.inl outcome, r.2.1)
            | none =>
              let amUpd := { assistantMessage with content := r.1 }
              let conv := { st.conversation with
                messages := st.conversation.messages ++ [Message.assistant amUpd] }
              (Sum.inr ⟨conv, totalUsage, budgetTokens, st.turns + 1⟩, r.2.1)

/-- `options.maxTurns || 100`. -/
def effectiveMaxTurns (opts : LoopOptions) : Nat :=
  if opts.maxTurns = 0 then 100 else opts.maxTurns

/-- The turn loop: after `maxTurns` turns, return the summarised
conversation if `summarize` is set, else throw. -/
def runLoop (complete : Conversation → Except Str (AssistantMessage × Usage))
    (opts : LoopOptions) (task : Str) :
    Nat → RunState → RunOutcome × List ToolCallRequest
  | 0, st =>
    if opts.summarize then
      (RunOutcome.summarized (loopSummarizeConversation task st.conversation), [])
    else (RunOutcome.threw "Failed to perform step, max attempts reached".toList, [])
  | fuel + 1, st =>
    match runStep complete opts task st with
    | (Sum.inl outcome, reqs) => (outcome, reqs)
    | (Sum.inr st', reqs) =>
      let r := runLoop complete opts task fuel st'
      (r.1, reqs ++ r.2)

/-- `Loop.run(task, options)`: build the initial conversation and iterate
the turn loop. -/
def runModel (complete : Conversation → Except Str (AssistantMessage × Usage))
    (opts : LoopOptions) (task : Str) : RunOutcome × List ToolCallRequest :=
  let conversation : Conversation :=
    ⟨loopSystemPrompt, [Message.user task], (runToolsSetup opts.tools opts.resultSchema).2⟩
  runLoop complete opts task (effectiveMaxTurns opts)
    ⟨conversation, ⟨0, 0⟩, opts.maxTokens, 0⟩

theorem toolCallsOf_append (a b : List ContentPart) :
    toolCallsOf (a ++ b) = toolCallsOf a ++ toolCallsOf b := by
  simp [toolCallsOf]

/-- How the dispatch loop updates one content part when no hook
interferes: a tool_call part gets its `callTool` result attached, or the
recovery error result if the call threw; other parts are untouched. -/
def updateContentPart (opts : LoopOptions) (intent : Str) : ContentPart → ContentPart
  | ContentPart.toolCall tc =>
    let attached : ToolResult :=
      match opts.callTool ⟨tc.name, spreadWithMeta tc.arguments intent⟩ with
      | Except.ok r => r
      | Except.error e => errorToolResult tc.name e
    ContentPart.toolCall { tc with result := some attached }
  | p => p

theorem dispatchParts_text (opts : LoopOptions) (am : AssistantMessage) (intent : Str)
    (usage : Usage) (turns : Nat) (t : Str) (rest : List ContentPart) :
    dispatchParts opts am intent usage turns (ContentPart.text t :: rest)
      = (ContentPart.text t :: (dispatchParts opts am intent usage turns rest).1,
         (dispatchParts opts am intent usage turns rest).2) := rfl

theorem dispatchParts_thinking (opts : LoopOptions) (am : AssistantMessage) (intent : Str)
    (usage : Usage) (turns : Nat) (th sig : Str) (rest : List ContentPart) :
    dispatchParts opts am intent usage turns (ContentPart.thinking th sig :: rest)
      = (ContentPart.thinking th sig :: (dispatchParts opts am intent usage turns rest).1,
         (dispatchParts opts am intent usage turns rest).2) := rfl

theorem dispatchParts_report (opts : LoopOptions) (am : AssistantMessage) (intent : Str)
    (usage : Usage) (turns : Nat) (tc : ToolCallContentPart) (rest : List ContentPart)
    (hrr : tc.name = "report_result".toList) :
    dispatchParts opts am intent usage turns (ContentPart.toolCall tc :: rest)
      = (ContentPart.toolCall tc :: rest, [],
         some (RunOutcome.ok tc.arguments usage turns)) := by
  simp [dispatchParts, hrr]

theorem dispatchParts_toolCall_nohooks (opts : LoopOptions) (am : AssistantMessage)
    (intent : Str) (usage : Usage) (turns : Nat) (tc : ToolCallContentPart)
    (rest : List ContentPart)
    (hbc : opts.onBeforeToolCall = none) (hac : opts.onAfterToolCall = none)
    (hec : opts.onToolCallError = none)
    (hname : tc.name ≠ "report_result".toList) :
    dispatchParts opts am intent usage turns (ContentPart.toolCall tc :: rest)
      = (updateContentPart opts intent (ContentPart.toolCall tc)
           :: (dispatchParts opts am intent usage turns rest).1,
         ⟨tc.name, spreadWithMeta tc.arguments intent⟩
           :: (dispatchParts opts am intent usage turns rest).2.1,
         (dispatchParts opts am intent usage turns rest).2.2) := by
  rw [dispatchParts]
  rw [if_neg hname]
  rw [hbc]
  simp only [Option.map_none', hookVote, Option.getD_none]
  cases hct : opts.callTool ⟨tc.name, spreadWithMeta tc.arguments intent⟩ with
  | ok r =>
    rw [hac]
    simp [updateContentPart, hct]
  | error e =>
    rw [hec]
    simp [updateContentPart, hct]

theorem dispatchParts_hits_report (opts : LoopOptions) (am : AssistantMessage)
    (intent : Str) (usage : Usage) (turns : Nat)
    (hbc : opts.onBeforeToolCall = none) (hac : opts.onAfterToolCall = none)
    (hec : opts.onToolCallError = none) :
    ∀ (pre : List ContentPart) (rr : ToolCallContentPart) (post : List ContentPart),
    rr.name = "report_result".toList →
    (∀ tc, ContentPart.toolCall tc ∈ pre → tc.name ≠ "report_result".toList) →
    (dispatchParts opts am intent usage turns (pre ++ ContentPart.toolCall rr :: post)).2
      = ((toolCallsOf pre).map
           (fun tc => (⟨tc.name, spreadWithMeta tc.arguments intent⟩ : ToolCallRequest)),
         some (RunOutcome.ok rr.arguments usage turns)) := by
  intro pre
  induction pre with
  | nil =>
    intro rr post hrr _
    rw [List.nil_append, dispatchParts_report opts am intent usage turns rr post hrr]
    simp [toolCallsOf]
  | cons p pre' ih =>
    intro rr post hrr hpre
    have hpre' : ∀ tc, ContentPart.toolCall tc ∈ pre' → tc.name ≠ "report_result".toList :=
      fun tc hm => hpre tc (List.mem_cons_of_mem _ hm)
    have hih := ih rr post hrr hpre'
    rw [Prod.ext_iff] at hih
    cases p with
    | text t =>
      rw [List.cons_append, dispatchParts_text]
      simp only [toolCallsOf, List.filterMap_cons]
      exact Prod.ext hih.1 hih.2
    | thinking th sig =>
      rw [List.cons_append, dispatchParts_thinking]
      simp only [toolCallsOf, List.filterMap_cons]
      exact Prod.ext hih.1 hih.2
    | toolCall tc =>
      have hname : tc.name ≠ "report_result".toList :=
        hpre tc (List.mem_cons_self _ _)
      rw [List.cons_append,
        dispatchParts_toolCall_nohooks opts am intent usage turns tc _ hbc hac hec hname]
      simp only [toolCallsOf, List.filterMap_cons, List.map_cons]
      exact Prod.ext (by simp [hih.1, toolCallsOf]) hih.2

theorem dispatchParts_no_report (opts : LoopOptions) (am : AssistantMessage)
    (intent : Str) (usage : Usage) (turns : Nat)
    (hbc : opts.onBeforeToolCall = none) (hac : opts.onAfterToolCall = none)
    (hec : opts.onToolCallError = none) :
    ∀ (parts : List ContentPart),
    (∀ tc, ContentPart.toolCall tc ∈ parts → tc.name ≠ "report_result".toList) →
    dispatchParts opts am intent usage turns parts
      = (parts.map (updateContentPart opts intent),
         (toolCallsOf parts).map
           (fun tc => (⟨tc.name, spreadWithMeta tc.arguments intent⟩ : ToolCallRequest)),
         none) := by
  intro parts
  induction parts with
  | nil => intro _; simp [dispatchParts, toolCallsOf]
  | cons p rest ih =>
    intro hp
    have hrest : ∀ tc, ContentPart.toolCall tc ∈ rest → tc.name ≠ "report_result".toList :=
      fun tc hm => hp tc (List.mem_cons_of_mem _ hm)
    have hih := ih hrest
    cases p with
    | text t =>
      rw [dispatchParts_text, hih]
      simp [toolCallsOf, updateContentPart]
    | thinking th sig =>
      rw [dispatchParts_thinking, hih]
      simp [toolCallsOf, updateContentPart]
    | toolCall tc =>
      have hname : tc.name ≠ "report_result".toList :=
        hp tc (List.mem_cons_self _ _)
      rw [dispatchParts_toolCall_nohooks opts am intent usage turns tc rest hbc hac hec hname,
        hih]
      simp [toolCallsOf]

/- Concrete fixtures used by the loop witnesses. -/

def fixOkResult : ToolResult := ⟨[ResultPart.text "ok".toList], false, none⟩

def fixOpts : LoopOptions :=
  { callTool := fun req =>
      if req.name = "boom".toList then Except.error "kaput".toList
      else Except.ok fixOkResult }

def fixState : RunState := ⟨⟨[], [], []⟩, ⟨0, 0⟩, none, 0⟩

def fixAddCall : ToolCallContentPart :=
  ⟨"add".toList, Json.obj JFields.nil, "c1".toList, none⟩

def fixReportCall : ToolCallContentPart :=
  ⟨"report_result".toList, Json.str "done".toList, "c2".toList, none⟩

def fixBoomCall : ToolCallContentPart :=
  ⟨"boom".toList, Json.null, "b1".toList, none⟩

def fixC1Message : AssistantMessage :=
  ⟨[ContentPart.toolCall fixAddCall, ContentPart.toolCall fixReportCall], none⟩

def fixC1Complete : Conversation → Except Str (AssistantMessage × Usage) :=
  fun _ => Except.ok (fixC1Message, ⟨5, 7⟩)

/-- C1: in a turn whose assistant message dispatches tool_call parts in
order, the first part named report_result ends the run immediately with
outcome `ok` carrying that part's arguments, the accumulated usage and
the turn count; `callTool` was invoked exactly for the tool calls
preceding it, so not for the report part nor for any later part. -/
theorem C1_report_result_returns_immediately
    (complete : Conversation → Except Str (AssistantMessage × Usage))
    (opts : LoopOptions) (task : Str) (st : RunState)
    (am : AssistantMessage) (usage : Usage)
    (pre post : List ContentPart) (rr : ToolCallContentPart)
    (hmt : opts.maxTokens = none) (hsum : opts.summarize = false)
    (hbt : opts.onBeforeTurn = none) (hat : opts.onAfterTurn = none)
    (hbc : opts.onBeforeToolCall = none) (hac : opts.onAfterToolCall = none)
    (hec : opts.onToolCallError = none)
    (hc : complete st.conversation = Except.ok (am, usage))
    (hcontent : am.content = pre ++ ContentPart.toolCall rr :: post)
    (hrr : rr.name = "report_result".toList)
    (hpre : ∀ tc, ContentPart.toolCall tc ∈ pre → tc.name ≠ "report_result".toList) :
    runStep complete opts task st
      = (Sum.inl (RunOutcome.ok rr.arguments
            ⟨st.totalUsage.input + usage.input, st.totalUsage.output + usage.output⟩
            st.turns),
         (toolCallsOf pre).map
           (fun tc => (⟨tc.name,
              spreadWithMeta tc.arguments (textJoin am.content)⟩ : ToolCallRequest)))
    ∧ ∀ fuel, runLoop complete opts task (fuel + 1) st
      = (RunOutcome.ok rr.arguments
            ⟨st.totalUsage.input + usage.input, st.totalUsage.output + usage.output⟩
            st.turns,
         (toolCallsOf pre).map
           (fun tc => (⟨tc.name,
              spreadWithMeta tc.arguments (textJoin am.content)⟩ : ToolCallRequest))) := by
  have h2 := dispatchParts_hits_report opts am
      (textJoin (pre ++ ContentPart.toolCall rr :: post))
      ⟨st.totalUsage.input + usage.input, st.totalUsage.output + usage.output⟩ st.turns
      hbc hac hec pre rr post hrr hpre
  obtain ⟨h21, h22⟩ := Prod.ext_iff.mp h2
  simp only at h21 h22
  have hstep : runStep complete opts task st
      = (Sum.inl (RunOutcome.ok rr.arguments
            ⟨st.totalUsage.input + usage.input, st.totalUsage.output + usage.output⟩
            st.turns),
         (toolCallsOf pre).map
           (fun tc => (⟨tc.name,
              spreadWithMeta tc.arguments (textJoin am.content)⟩ : ToolCallRequest))) := by
    simp [runStep, hmt, hsum, hbt, hat, hc, hookVote, hcontent, toolCallsOf_append,
      toolCallsOf, h21, h22]
  refine ⟨hstep, fun fuel => ?_⟩
  rw [runLoop, hstep]

/-- C1 witness: a concrete turn with an `add` call followed by a
`report_result` call ends the run with the report arguments, and the
trace holds the `add` invocation only. -/
theorem C1_witness :
    (runStep fixC1Complete fixOpts [] fixState
      = (Sum.inl (RunOutcome.ok (Json.str "done".toList) ⟨5, 7⟩ 0),
         [⟨"add".toList,
            spreadWithMeta (Json.obj JFields.nil) (textJoin fixC1Message.content)⟩]))
    ∧ (runLoop fixC1Complete fixOpts [] 1 fixState
      = (RunOutcome.ok (Json.str "done".toList) ⟨5, 7⟩ 0,
         [⟨"add".toList,
            spreadWithMeta (Json.obj JFields.nil) (textJoin fixC1Message.content)⟩])) :=
  ⟨(C1_report_result_returns_immediately fixC1Complete fixOpts [] fixState fixC1Message
      ⟨5, 7⟩ [ContentPart.toolCall fixAddCall] [] fixReportCall
      rfl rfl rfl rfl rfl rfl rfl rfl rfl rfl
      (by
        intro tc h
        simp only [List.mem_singleton, ContentPart.toolCall.injEq] at h
        subst h
        decide)).1,
   (C1_report_result_returns_immediately fixC1Complete fixOpts [] fixState fixC1Message
      ⟨5, 7⟩ [ContentPart.toolCall fixAddCall] [] fixReportCall
      rfl rfl rfl rfl rfl rfl rfl rfl rfl rfl
      (by
        intro tc h
        simp only [List.mem_singleton, ContentPart.toolCall.injEq] at h
        subst h
        decide)).2 0⟩

def fixC2Message : AssistantMessage :=
  ⟨[ContentPart.toolCall fixBoomCall, ContentPart.toolCall fixAddCall], none⟩

def fixC2Complete : Conversation → Except Str (AssistantMessage × Usage) :=
  fun _ => Except.ok (fixC2Message, ⟨2, 3⟩)

/-- C2: when `callTool` throws for some tool_call of the turn, the
exception is not propagated: the step still continues to the next turn
(`Sum.inr`), every tool call of the message was invoked (the request
trace lists them all, so the remaining calls after the offending one ran
normally), and the offending part got the `isError` recovery result whose
text is exactly
`Error while executing tool "<name>": <err>\n\nPlease try to recover and
complete the task.`. -/
theorem C2_tool_error_recovers_and_continues
    (complete : Conversation → Except Str (AssistantMessage × Usage))
    (opts : LoopOptions) (task : Str) (st : RunState)
    (am : AssistantMessage) (usage : Usage) (tc : ToolCallContentPart) (e : Str)
    (hmt : opts.maxTokens = none) (hsum : opts.summarize = false)
    (hbt : opts.onBeforeTurn = none) (hat : opts.onAfterTurn = none)
    (hbc : opts.onBeforeToolCall = none) (hac : opts.onAfterToolCall = none)
    (hec : opts.onToolCallError = none)
    (hc : complete st.conversation = Except.ok (am, usage))
    (hnorep : ∀ c, ContentPart.toolCall c ∈ am.content → c.name ≠ "report_result".toList)
    (hsome : toolCallsOf am.content ≠ [])
    (hmem : ContentPart.toolCall tc ∈ am.content)
    (hthrow : opts.callTool ⟨tc.name, spreadWithMeta tc.arguments (textJoin am.content)⟩
        = Except.error e) :
    runStep complete opts task st
      = (Sum.inr ⟨{ st.conversation with messages := st.conversation.messages
            ++ [Message.assistant { am with
                  content := am.content.map (updateContentPart opts (textJoin am.content)) }] },
          ⟨st.totalUsage.input + usage.input, st.totalUsage.output + usage.output⟩,
          st.budgetTokens.map (fun b => b - ((usage.input : Int) + (usage.output : Int))),
          st.turns + 1⟩,
         (toolCallsOf am.content).map
           (fun c => (⟨c.name,
              spreadWithMeta c.arguments (textJoin am.content)⟩ : ToolCallRequest)))
    ∧ updateContentPart opts (textJoin am.content) (ContentPart.toolCall tc)
        = ContentPart.toolCall { tc with result := some (errorToolResult tc.name e) }
    ∧ (errorToolResult tc.name e).isError = true
    ∧ (errorToolResult tc.name e).content
        = [ResultPart.text ("Error while executing tool \"".toList ++ tc.name
            ++ "\": ".toList ++ e
            ++ "\n\nPlease try to recover and complete the task.".toList)] := by
  have h2 := dispatchParts_no_report opts am (textJoin am.content)
      ⟨st.totalUsage.input + usage.input, st.totalUsage.output + usage.output⟩ st.turns
      hbc hac hec am.content hnorep
  refine ⟨?_, ?_, rfl, rfl⟩
  · simp [runStep, hmt, hsum, hbt, hat, hc, hookVote, hsome, h2]
  · simp [updateContentPart, hthrow]

/-- C2 witness: a concrete turn where the first call (`boom`) throws
`kaput` and a second call (`add`) follows; the step continues, both calls
appear in the trace, and `boom` carries the recovery error result. -/
theorem C2_witness :
    (runStep fixC2Complete fixOpts [] fixState
      = (Sum.inr ⟨⟨[], [Message.assistant { fixC2Message with
              content := fixC2Message.content.map
                (updateContentPart fixOpts (textJoin fixC2Message.content)) }], []⟩,
          ⟨2, 3⟩, none, 1⟩,
         (toolCallsOf fixC2Message.content).map
           (fun c => (⟨c.name,
              spreadWithMeta c.arguments (textJoin fixC2Message.content)⟩ : ToolCallRequest))))
    ∧ updateContentPart fixOpts (textJoin fixC2Message.content)
        (ContentPart.toolCall fixBoomCall)
      = ContentPart.toolCall { fixBoomCall with
          result := some (errorToolResult "boom".toList "kaput".toList) }
    ∧ (errorToolResult "boom".toList "kaput".toList).isError = true
    ∧ (errorToolResult "boom".toList "kaput".toList).content
      = [ResultPart.text ("Error while executing tool \"".toList ++ "boom".toList
          ++ "\": ".toList ++ "kaput".toList
          ++ "\n\nPlease try to recover and complete the task.".toList)] :=
  C2_tool_error_recovers_and_continues fixC2Complete fixOpts [] fixState fixC2Message
    ⟨2, 3⟩ fixBoomCall "kaput".toList
    rfl rfl rfl rfl rfl rfl rfl rfl
    (by
      intro c h
      simp only [fixC2Message, List.mem_cons, List.mem_singleton,
        ContentPart.toolCall.injEq, List.not_mem_nil, or_false] at h
      rcases h with h | h
      · subst h; decide
      · subst h; decide)
    (by decide)
    (by simp [fixC2Message])
    rfl

def fixC3Message : AssistantMessage := ⟨[ContentPart.text "hello".toList], none⟩

def fixC3Complete : Conversation → Except Str (AssistantMessage × Usage) :=
  fun _ => Except.ok (fixC3Message, ⟨1, 1⟩)

/-- C3 counterexample: a turn without tool calls sets the assistant
message's `toolError` to `noToolCallError`, and that string is not the
literal the claim states — the code says `Call the "report_result" tool
when the task is complete.`, not `Call "report_result" when complete.`. -/
theorem C3_counterexample :
    (match (runStep fixC3Complete fixOpts [] fixState).1 with
     | Sum.inr st' =>
       match st'.conversation.messages with
       | [Message.assistant am] => am.toolError
       | _ => none
     | _ => none)
      = some noToolCallError
    ∧ noToolCallError
      ≠ ("Error: tool call is expected in every assistant message."
          ++ " Call \"report_result\" when complete.").toList :=
  ⟨rfl, by decide⟩

/-- C3 (amended): in a turn whose assistant message has zero tool_call
parts, the loop neither invokes `callTool` (the request trace is empty)
nor terminates: it appends the assistant message with `toolError` set to
the exact string `Error: tool call is expected in every assistant
message. Call the "report_result" tool when the task is complete.` and
proceeds to the next turn. -/
theorem C3_no_tool_call_sets_toolError_amended
    (complete : Conversation → Except Str (AssistantMessage × Usage))
    (opts : LoopOptions) (task : Str) (st : RunState)
    (am : AssistantMessage) (usage : Usage)
    (hmt : opts.maxTokens = none) (hsum : opts.summarize = false)
    (hbt : opts.onBeforeTurn = none) (hat : opts.onAfterTurn = none)
    (hc : complete st.conversation = Except.ok (am, usage))
    (hempty : toolCallsOf am.content = []) :
    runStep complete opts task st
      = (Sum.inr ⟨{ st.conversation with messages := st.conversation.messages
            ++ [Message.assistant { am with toolError := some noToolCallError }] },
          ⟨st.totalUsage.input + usage.input, st.totalUsage.output + usage.output⟩,
          st.budgetTokens.map (fun b => b - ((usage.input : Int) + (usage.output : Int))),
          st.turns + 1⟩, [])
    ∧ noToolCallError
      = ("Error: tool call is expected in every assistant message."
          ++ " Call the \"report_result\" tool when the task is complete.").toList := by
  refine ⟨?_, by decide⟩
  simp [runStep, hmt, hsum, hbt, hat, hc, hookVote, hempty]

/-- C3 witness: the amended behaviour on the concrete no-tool-call turn. -/
theorem C3_witness :
    (runStep fixC3Complete fixOpts [] fixState
      = (Sum.inr ⟨⟨[], [Message.assistant { fixC3Message with
              toolError := some noToolCallError }], []⟩,
          ⟨1, 1⟩, none, 1⟩, []))
    ∧ noToolCallError
      = ("Error: tool call is expected in every assistant message."
          ++ " Call the \"report_result\" tool when the task is complete.").toList :=
  C3_no_tool_call_sets_toolError_amended fixC3Complete fixOpts [] fixState fixC3Message
    ⟨1, 1⟩ rfl rfl rfl rfl rfl rfl

def fixTool : Tool := ⟨"add".toList, none, Json.obj JFields.nil⟩

/-- C10: the tool-list setup leaves the caller's `options.tools` array
exactly as it was — same elements, same order — and pushes
`report_result` only onto the fresh `allTools` copy, so `report_result`
never appears in the caller's array (provided the caller did not put it
there). -/
theorem C10_options_tools_not_mutated (tools : List Tool) (resultSchema : Option Json)
    (hno : ∀ t ∈ tools, t.name ≠ "report_result".toList) :
    (runToolsSetup tools resultSchema).1 = tools
    ∧ (runToolsSetup tools resultSchema).2 = tools ++ [reportResultTool resultSchema]
    ∧ ∀ t ∈ (runToolsSetup tools resultSchema).1, t.name ≠ "report_result".toList :=
  ⟨rfl, rfl, hno⟩

/-- C10 witness: the setup on a one-tool array. -/
theorem C10_witness :
    (runToolsSetup [fixTool] none).1 = [fixTool]
    ∧ (runToolsSetup [fixTool] none).2 = [fixTool] ++ [reportResultTool none]
    ∧ ∀ t ∈ (runToolsSetup [fixTool] none).1, t.name ≠ "report_result".toList :=
  C10_options_tools_not_mutated [fixTool] none
    (by
      intro t h
      rw [List.mem_singleton] at h
      subst h
      decide)

/- The Gemini adapter's schema serialisation
(packages/loop/src/providers/gemini.ts): `stripUnsupportedSchemaFields`
copies the schema, deletes the key `additionalProperties` at this level,
and recurses into every remaining value that is an object or an array
(in JS, exactly the truthy values of type 'object'); other values are
returned unchanged. -/

mutual

def stripUnsupportedSchemaFields : Json → Json
  | Json.obj fs => Json.obj (stripFields fs)
  | Json.arr xs => Json.arr (stripItems xs)
  | j => j

def stripFields : JFields → JFields
  | JFields.nil => JFields.nil
  | JFields.cons k v tl =>
    if k = "additionalProperties".toList then stripFields tl
    else JFields.cons k (stripUnsupportedSchemaFields v) (stripFields tl)

def stripItems : JList → JList
  | JList.nil => JList.nil
  | JList.cons v tl => JList.cons (stripUnsupportedSchemaFields v) (stripItems tl)

end

/- No object anywhere in the JSON value carries the key
`additionalProperties`. -/

mutual

def noAPJson : Json → Bool
  | Json.obj fs => noAPFields fs
  | Json.arr xs => noAPItems xs
  | _ => true

def noAPFields : JFields → Bool
  | JFields.nil => true
  | JFields.cons k v tl =>
    !decide (k = "additionalProperties".toList) && noAPJson v && noAPFields tl

def noAPItems : JList → Bool
  | JList.nil => true
  | JList.cons v tl => noAPJson v && noAPItems tl

end

/-- A Gemini `functionDeclaration` as built by `toGeminiTool`. -/
structure GeminiFunctionDecl where
  name : Str
  description : Option Str
  parameters : Json
  deriving DecidableEq, Repr

/-- `toGeminiTool` (gemini.ts). -/
def toGeminiTool (tool : Tool) : GeminiFunctionDecl :=
  ⟨tool.name, tool.description, stripUnsupportedSchemaFields tool.inputSchema⟩

mutual

theorem noAPJson_strip (j : Json) :
    noAPJson (stripUnsupportedSchemaFields j) = true := by
  cases j with
  | obj fs => rw [stripUnsupportedSchemaFields]; rw [noAPJson]; exact noAPFields_strip fs
  | arr xs => rw [stripUnsupportedSchemaFields]; rw [noAPJson]; exact noAPItems_strip xs
  | null => rfl
  | bool b => rfl
  | num n => rfl
  | str s => rfl
termination_by sizeOf j

theorem noAPFields_strip (fs : JFields) :
    noAPFields (stripFields fs) = true := by
  cases fs with
  | nil => rfl
  | cons k v tl =>
    rw [stripFields]
    split
    · exact noAPFields_strip tl
    next hk =>
      rw [noAPFields]
      simp only [noAPJson_strip v, noAPFields_strip tl, Bool.and_true]
      simp only [Bool.not_eq_eq_eq_not, Bool.not_true, decide_eq_false_iff_not]
      exact hk
termination_by sizeOf fs

theorem noAPItems_strip (xs : JList) :
    noAPItems (stripItems xs) = true := by
  cases xs with
  | nil => rfl
  | cons v tl =>
    rw [stripItems, noAPItems]
    simp [noAPJson_strip v, noAPItems_strip tl]
termination_by sizeOf xs

end

mutual

theorem strip_id_of_noAP (j : Json) (h : noAPJson j = true) :
    stripUnsupportedSchemaFields j = j := by
  cases j with
  | obj fs =>
    rw [noAPJson] at h
    rw [stripUnsupportedSchemaFields, stripFields_id_of_noAP fs h]
  | arr xs =>
    rw [noAPJson] at h
    rw [stripUnsupportedSchemaFields, stripItems_id_of_noAP xs h]
  | null => rfl
  | bool b => rfl
  | num n => rfl
  | str s => rfl
termination_by sizeOf j

theorem stripFields_id_of_noAP (fs : JFields) (h : noAPFields fs = true) :
    stripFields fs = fs := by
  cases fs with
  | nil => rfl
  | cons k v tl =>
    rw [noAPFields] at h
    simp only [Bool.and_eq_true, Bool.not_eq_true', decide_eq_false_iff_not] at h
    rw [stripFields, if_neg h.1.1, strip_id_of_noAP v h.1.2, stripFields_id_of_noAP tl h.2]
termination_by sizeOf fs

theorem stripItems_id_of_noAP (xs : JList) (h : noAPItems xs = true) :
    stripItems xs = xs := by
  cases xs with
  | nil => rfl
  | cons v tl =>
    rw [noAPItems] at h
    simp only [Bool.and_eq_true] at h
    rw [stripItems, strip_id_of_noAP v h.1, stripItems_id_of_noAP tl h.2]
termination_by sizeOf xs

end

theorem stripFields_entries (fs : JFields) :
    jfieldsToList (stripFields fs)
      = ((jfieldsToList fs).filter
          (fun kv => !decide (kv.1 = "additionalProperties".toList))).map
          (fun kv => (kv.1, stripUnsupportedSchemaFields kv.2)) := by
  cases fs with
  | nil => rfl
  | cons k v tl =>
    rw [stripFields]
    split
    next hk =>
      rw [jfieldsToList]
      simp [List.filter_cons, hk, stripFields_entries tl]
    next hk =>
      rw [jfieldsToList, jfieldsToList]
      rw [stripFields_entries tl]
      rw [List.filter_cons]
      rw [if_pos (by simpa using hk)]
      simp
termination_by sizeOf fs

/-- C7: the Gemini adapter serialises a tool by recursively stripping
`additionalProperties`: no object anywhere in the serialised parameters
carries that key; on an object schema the stripped field list keeps
exactly the other fields, in order, with their values recursively
stripped; stripping is idempotent; and name and description pass through
untouched. -/
theorem C7_gemini_strips_additionalProperties (t : Tool) (fs : JFields) :
    noAPJson (toGeminiTool t).parameters = true
    ∧ stripUnsupportedSchemaFields (Json.obj fs) = Json.obj (stripFields fs)
    ∧ jfieldsToList (stripFields fs)
      = ((jfieldsToList fs).filter
          (fun kv => !decide (kv.1 = "additionalProperties".toList))).map
          (fun kv => (kv.1, stripUnsupportedSchemaFields kv.2))
    ∧ stripUnsupportedSchemaFields (toGeminiTool t).parameters
      = (toGeminiTool t).parameters
    ∧ (toGeminiTool t).name = t.name
    ∧ (toGeminiTool t).description = t.description :=
  ⟨noAPJson_strip t.inputSchema,
   rfl,
   stripFields_entries fs,
   strip_id_of_noAP _ (noAPJson_strip t.inputSchema),
   rfl, rfl⟩

/-- C8: summarisation is idempotent on a conversation with at most one
assistant message: the summarised conversation, summarised again with
the same task, yields the identical summary string and the identical
(untouched) last assistant message — exact equality, hence in particular
equality modulo whitespace. -/
theorem C8_summarize_idempotent_on_short (task : Str) (c : Conversation)
    (h : (assistantMessagesOf c.messages).length ≤ 1) :
    summarizeConversation task (loopSummarizeConversation task c)
      = summarizeConversation task c := by
  match hm : assistantMessagesOf c.messages with
  | [] =>
    have hr : summarizeConversation task c
        = ⟨List.intercalate ['\n'] ["## Task".toList, task], none⟩ := by
      rw [summarizeConversation, hm]
      rfl
    rw [loopSummarizeConversation, hr]
    rfl
  | [m] =>
    have hlast : (summarizeConversation task c).lastMessage = some m := by
      rw [summarizeConversation, hm]
      rfl
    rw [loopSummarizeConversation, hlast]
    have hams : assistantMessagesOf
        (Message.user (summarizeConversation task c).summary :: [Message.assistant m])
        = [m] := rfl
    conv_lhs => rw [summarizeConversation, hams]
    rw [summarizeConversation, hm]
  | a :: b :: rest =>
    rw [hm] at h
    simp [List.length_cons] at h

def fixSummResult : ToolResult :=
  ⟨[ResultPart.text "done".toList], false, some ⟨[], [("page".toList, "1".toList)]⟩⟩

def fixSummCall : ToolCallContentPart :=
  ⟨"nav".toList, Json.obj JFields.nil, "s1".toList, some fixSummResult⟩

def fixSummConv : Conversation :=
  ⟨[], [Message.user "go".toList,
        Message.assistant ⟨[ContentPart.text "t".toList,
                            ContentPart.toolCall fixSummCall], none⟩], []⟩

/-- C8 witness: idempotence on a concrete one-assistant-message
conversation whose tool call carries a `dev.lowire/state` entry. -/
theorem C8_witness :
    summarizeConversation "task".toList
        (loopSummarizeConversation "task".toList fixSummConv)
      = summarizeConversation "task".toList fixSummConv :=
  C8_summarize_idempotent_on_short "task".toList fixSummConv (by decide)
